import Mathlib

/-!
Verification development for the notebook-to-edX course converter
(`scripts/converter.py`).  The compilation core is shallowly embedded:
notebook cells, units, the syllabus hierarchy and the produced XML tree are
explicit data, external collaborators (the HTML renderer, the XML string
parser `ElementTree.fromstring`, the notebook files on disk) are function
parameters, and Python exceptions are modelled with `Except String`.
-/

namespace Converter

/-! ## Character and string utilities

Python operates on strings; we model the handful of primitive string
operations the converter uses (`str.split`, `str.startswith`, slicing,
regular-expression helpers) as executable functions on `List Char` /
`String` so that every theorem below can also be evaluated on concrete
inputs by the kernel. -/

/-- Value of a decimal digit character; `0` on other characters (the
callers below only apply it to digits). -/
def digitVal : Char → Nat
  | '0' => 0 | '1' => 1 | '2' => 2 | '3' => 3 | '4' => 4
  | '5' => 5 | '6' => 6 | '7' => 7 | '8' => 8 | '9' => 9
  | _ => 0

/-- Decimal digit character of `d` for `d < 10` (as in Python number
formatting); a placeholder on larger inputs. -/
def digitChar : Nat → Char
  | 0 => '0' | 1 => '1' | 2 => '2' | 3 => '3' | 4 => '4'
  | 5 => '5' | 6 => '6' | 7 => '7' | 8 => '8' | 9 => '9'
  | _ + 10 => '*'

/-- Is `c` a decimal digit? -/
def isDigitCh (c : Char) : Bool :=
  c = '0' ∨ c = '1' ∨ c = '2' ∨ c = '3' ∨ c = '4' ∨
  c = '5' ∨ c = '6' ∨ c = '7' ∨ c = '8' ∨ c = '9'

/-- Read a digit list as a decimal number (most significant digit first). -/
def parseDigits (l : List Char) : Nat :=
  l.foldl (fun a c => a * 10 + digitVal c) 0

/-- Decimal digits of `n`, most significant first, computed with explicit
fuel so that the kernel can evaluate it (`fuel > n` suffices). -/
def natDigitsAux : Nat → Nat → List Char
  | 0, _ => []
  | fuel + 1, n =>
    if n < 10 then [digitChar n]
    else natDigitsAux fuel (n / 10) ++ [digitChar (n % 10)]

/-- Decimal rendering of a natural number, as Python renders an `int`. -/
def natToString (n : Nat) : String := ⟨natDigitsAux (n + 1) n⟩

/-- Python format `f"{n:02}"`: decimal rendering left-padded with `0` to
width two. -/
def pad2 (n : Nat) : String :=
  if n < 10 then "0" ++ natToString n else natToString n

/-- Python format `%Y` of `strftime`: decimal rendering zero-padded to
width four. -/
def pad4 (n : Nat) : String :=
  if n < 10 then "000" ++ natToString n
  else if n < 100 then "00" ++ natToString n
  else if n < 1000 then "0" ++ natToString n
  else natToString n

/-- Model of Python `str.split(sep)` for a one-character separator: every
occurrence separates, so the result has one more part than there are
separators.  (Lean's own `String.splitOn` is not kernel-reducible, and
this definition also matches Python's semantics directly.) -/
def splitChar (sep : Char) : List Char → List (List Char)
  | [] => [[]]
  | c :: rest =>
    if c = sep then [] :: splitChar sep rest
    else
      match splitChar sep rest with
      | s :: ss => (c :: s) :: ss
      | [] => [[c]]

/-- Python `source.split(chr(10))` on strings. -/
def pySplitLines (s : String) : List String :=
  (splitChar '\n' s.data).map (fun l => ⟨l⟩)

/-- Boolean prefix test on character lists. -/
def isPrefixChars : List Char → List Char → Bool
  | [], _ => true
  | _ :: _, [] => false
  | p :: ps, c :: cs => p = c && isPrefixChars ps cs

/-- Model of Python `str.startswith`. -/
def strStartsWith (s pre : String) : Bool :=
  isPrefixChars pre.data s.data

/-- Suffix test (used for the `$`-anchored regular expressions, which must
match up to the end of the line). -/
def strEndsWith (s suf : String) : Bool :=
  isPrefixChars suf.data.reverse s.data.reverse

/-- Drop the last `n` elements of a list. -/
def listDropRight (l : List Char) (n : Nat) : List Char :=
  l.take (l.length - n)

/-- Python `"sep".join`: interpose a separator between strings. -/
def sIntercalate (sep : String) : List String → String
  | [] => ""
  | [s] => s
  | s :: rest => s ++ sep ++ sIntercalate sep rest

/-- First-match association-list lookup, modelling `dict.get` /
`key in dict` on the (insertion-ordered) attribute dictionaries. -/
def alookup (k : String) : List (String × String) → Option String
  | [] => none
  | (k₁, v) :: rest => if k₁ = k then some v else alookup k rest

/-! ## Data model

`Cell` is the spec's ContentBlock: a notebook cell with a kind tag, raw
source text and — for code cells — the recorded outputs.  An absent
`outputs` attribute (`hasattr(cell, 'outputs')` false in the source) is
modelled as `none`; each output's `data` mime-bundle is an insertion-ordered
association list (`output.get('data')` returning `None` and an empty dict
behave identically in the source and both correspond to `[]`). -/

structure Output where
  data : List (String × String)
  deriving DecidableEq, Repr

structure Cell where
  cell_type : String
  source : String
  outputs : Option (List Output)
  deriving DecidableEq, Repr

/-- A unit produced by `split_into_units`: a notebook named by the heading
that opened it (`current.new_notebook(metadata={'name': ...})`). -/
structure MUnit where
  name : String
  cells : List Cell
  deriving DecidableEq, Repr

/-- Element tree node, the model of `xml.etree.ElementTree` elements built
by the converter (`SubElement` with an insertion-ordered attribute dict). -/
inductive XML where
  | elem (tag : String) (attrs : List (String × String)) (children : List XML)

def XML.tagOf : XML → String
  | .elem t _ _ => t

def XML.attrsOf : XML → List (String × String)
  | .elem _ a _ => a

def XML.childrenOf : XML → List XML
  | .elem _ _ c => c

/-- Artifact emitted by `convert_unit` for one unit: either a rendered HTML
string or a parsed special xml component (the `isinstance(out, str)` test
in `converter` distinguishes exactly these two cases). -/
inductive Artifact where
  | html (s : String)
  | xml (x : XML)

/-- One record of the parsed syllabus: `[name, release_dates.get(name), subs]`
with `subs` the `(title, filename)` pairs of the section's subsections. -/
structure SyllEntry where
  name : String
  date : Option String
  subs : List (String × String)
  deriving DecidableEq, Repr

/-- The `sequential` SimpleNamespace built by `parse_syllabus`. -/
structure Sequential where
  name : String
  date : Option String
  url : String
  source_notebook : String
  deriving DecidableEq, Repr

/-- The `chapter` SimpleNamespace built by `parse_syllabus`. -/
structure Chapter where
  name : String
  date : Option String
  url : String
  sequentials : List Sequential
  deriving DecidableEq, Repr

/-- The `data` SimpleNamespace returned by `parse_syllabus`
(`category='main'` omitted as a constant). -/
structure CourseData where
  chapters : List Chapter
  deriving DecidableEq, Repr

end Converter

namespace Converter

/-! ## Unit Splitter (`split_into_units`, converter.py lines 141-179)

A markdown cell's source is split with
`re.split('(^# .*$)', source, flags=re.MULTILINE)`: every line starting
with `"# "` becomes its own piece and the capturing group keeps it in the
result, while the text between two heading lines (including the
surrounding newline separators) forms the pieces in between.  We compute
exactly those pieces from the line list. -/

/-- Does this line match `^# .*$` (with `re.MULTILINE`, i.e. is it a line
whose text starts with `"# "`)? -/
def isHeadingLine (l : String) : Bool :=
  strStartsWith l "# "

/-- Model of `re.split('(^# .*$)', ·, flags=re.MULTILINE)` applied to the
lines of the source.  `acc` holds the lines of the piece under
construction; a piece that follows a heading starts with the leftover
newline separator, represented by seeding `acc` with `""`. -/
def reSplitSources : List String → List String → List String
  | [], acc => [sIntercalate "\n" acc]
  | l :: rest, acc =>
    if isHeadingLine l then
      sIntercalate "\n" (acc ++ [""]) :: l :: reSplitSources rest [""]
    else
      reSplitSources rest (acc ++ [l])

/-- Model of the `split_cells` generator: drop leading non-markdown cells
(`dropwhile`), pass non-markdown cells through unchanged, and replace each
markdown cell by one synthetic markdown cell per regex-split piece of its
source (`NotebookNode(source=src, cell_type='markdown', metadata={})`,
which carries no `outputs` attribute). -/
def splitCells (cells : List Cell) : List Cell :=
  (cells.dropWhile (fun c => ¬ c.cell_type = "markdown")).flatMap
    (fun c =>
      if c.cell_type = "markdown" then
        (reSplitSources (pySplitLines c.source) []).map
          (fun src => { cell_type := "markdown", source := src, outputs := none })
      else [c])

/-- Does this cell open a new unit
(`cell.cell_type == 'markdown' and cell.source.startswith('# ')`)? -/
def isHeaderCell (c : Cell) : Bool :=
  c.cell_type = "markdown" && strStartsWith c.source "# "

/-- Model of `re.match('^# (.*)$', cell.source).group(1)` for the heading
cells produced by `splitCells`, whose source is exactly one heading line:
the text after the `"# "` marker. -/
def headingTitle (s : String) : String :=
  ⟨((pySplitLines s).headD "").data.drop 2⟩

/-- The unit-assembly loop of `split_into_units`: `done` are the closed
units, `cur` is `units[-1]` (the currently open unit, absent before the
first heading).  A heading cell closes the current unit and opens a new
one (keeping the heading itself when `include_header`); any other cell is
appended to the open unit and discarded when no unit is open yet. -/
def buildUnitsAux (include_header : Bool) (done : List MUnit) (cur : Option MUnit) :
    List Cell → List MUnit
  | [] => done ++ cur.toList
  | c :: rest =>
    if isHeaderCell c then
      buildUnitsAux include_header (done ++ cur.toList)
        (some ⟨headingTitle c.source, if include_header then [c] else []⟩) rest
    else
      match cur with
      | none => buildUnitsAux include_header done none rest
      | some u =>
        buildUnitsAux include_header done (some ⟨u.name, u.cells ++ [c]⟩) rest

/-- Model of `split_into_units` (the notebook file read is replaced by its
cell list). -/
def split_into_units (cells : List Cell) (include_header : Bool := true) :
    List MUnit :=
  buildUnitsAux include_header [] none (splitCells cells)

end Converter

namespace Converter

/-! ## Equation-delimiter rewrite and the Cell Classifier
(`export_unit_to_html`, `convert_normal_cells`, `convert_unit`,
converter.py lines 182-277)

The regular expression `\\begin\{ *equation *\}` matches a literal
backslash, the keyword, an opening brace, optional spaces, `equation`,
optional spaces and a closing brace; the replacement string `'\['`
(respectively `'\]'`) keeps the backslash.  `re.sub` replaces each
non-overlapping leftmost match, which the scanner below reproduces:
at every position it tries an anchored match and otherwise copies one
character.  The scanner carries fuel (any value at least the length of
the input) so that it stays kernel-reducible. -/

/-- Anchored match of `\\KW\{ *equation *\}` at the front of `cs`; returns
the characters after the match. -/
def matchDelim (kw : List Char) (cs : List Char) : Option (List Char) :=
  if isPrefixChars ('\\' :: kw ++ ['{']) cs then
    if isPrefixChars "equation".data
        ((cs.drop (kw.length + 2)).dropWhile (fun c => c = ' ')) then
      match (((cs.drop (kw.length + 2)).dropWhile (fun c => c = ' ')).drop 8
          ).dropWhile (fun c => c = ' ') with
      | '}' :: rest => some rest
      | _ => none
    else none
  else none

/-- Scanner for `re.sub(r'\\KW\{ *equation *\}', repl, ·)` where the
replacement is a backslash followed by `rep`. -/
def eqDelimGo (kw : List Char) (rep : Char) : Nat → List Char → List Char
  | _, [] => []
  | 0, l => l
  | fuel + 1, c :: cs =>
    match matchDelim kw (c :: cs) with
    | some rest => '\\' :: rep :: eqDelimGo kw rep fuel rest
    | none => c :: eqDelimGo kw rep fuel cs

/-- Model of
`re.sub(r'\\begin\{ *equation *\}', '\[', s)` followed by
`re.sub(r'\\end\{ *equation *\}', '\]', s)`. -/
def eqSub (s : String) : String :=
  ⟨eqDelimGo "end".data ']'
    (eqDelimGo "begin".data '[' s.data.length s.data).length
    (eqDelimGo "begin".data '[' s.data.length s.data)⟩

/-- Model of `export_unit_to_html`: the external `HTMLExporter` is the
function parameter `render`; the equation delimiters of the rendered body
are then rewritten. -/
def export_unit_to_html (render : List Cell → String) (cells : List Cell) :
    String :=
  eqSub (render cells)

/-- The in-place update `cell.source = re.sub(...)` performed by
`convert_normal_cells` on each markdown cell. -/
def eqRewriteCell (c : Cell) : Cell :=
  if c.cell_type = "markdown" then { c with source := eqSub c.source } else c

/-- Model of `convert_normal_cells`: the first component is the cell list
after the in-place `cell.source` mutations, the second the HTML rendered
from those mutated cells (`current.new_notebook(cells=...)` then
`export_unit_to_html`). -/
def convert_normal_cells (render : List Cell → String) (normal_cells : List Cell) :
    List Cell × String :=
  let cs := normal_cells.map eqRewriteCell
  (cs, export_unit_to_html render cs)

/-- The mime key `'application/vnd.edx.olxml+xml'`. -/
def olxmlMime : String := "application/vnd.edx.olxml+xml"

/-- Payload extraction for one output:
`data = output.get('data'); if data and MIME in data: data[MIME]`. -/
def getPayload (o : Output) : Option String :=
  alookup olxmlMime o.data

/-- The `xml_components` list collected for a cell (empty when the cell has
no `outputs` attribute, so such a cell is never treated as special). -/
def cellXmlComponents (c : Cell) : List String :=
  match c.outputs with
  | none => []
  | some outs => outs.filterMap getPayload

/-- Flush of the pending `normal_cells` batch: one HTML artifact if the
batch is non-empty, nothing otherwise. -/
def flushNormalCells (render : List Cell → String) (normal_cells : List Cell) :
    List Artifact :=
  match normal_cells with
  | [] => []
  | _ :: _ => [.html (convert_normal_cells render normal_cells).2]

/-- The cell loop of `convert_unit`, with the two accumulators
`unit_output` and `normal_cells` explicit.  A markdown cell joins the
batch; a code cell without an `outputs` attribute is skipped; a code cell
whose outputs carry no `olxml` payload joins the batch; exactly one
payload flushes the batch and emits the parsed component; more than one
raises `RuntimeError('More than 1 xml component in a cell.')`. -/
def convertUnitGo (render : List Cell → String) (parseXml : String → XML)
    (unit_output : List Artifact) (normal_cells : List Cell) :
    List Cell → Except String (List Artifact)
  | [] => .ok (unit_output ++ flushNormalCells render normal_cells)
  | c :: rest =>
    if c.cell_type = "markdown" then
      convertUnitGo render parseXml unit_output (normal_cells ++ [c]) rest
    else
      match c.outputs with
      | none => convertUnitGo render parseXml unit_output normal_cells rest
      | some outs =>
        match outs.filterMap getPayload with
        | [] => convertUnitGo render parseXml unit_output (normal_cells ++ [c]) rest
        | [x] =>
          convertUnitGo render parseXml
            (unit_output ++ flushNormalCells render normal_cells ++
              [.xml (parseXml x)]) [] rest
        | _ :: _ :: _ => .error "More than 1 xml component in a cell."

/-- Model of `convert_unit` (the external `ElementTree.fromstring` is the
parameter `parseXml`; `date` is accepted and unused exactly as in the
source). -/
def convert_unit (render : List Cell → String) (parseXml : String → XML)
    (unit : MUnit) (date : Option String) : Except String (List Artifact) :=
  convertUnitGo render parseXml [] [] unit.cells

end Converter

namespace Converter

/-! ## Syllabus Parser (`parse_syllabus`, converter.py lines 91-138) and
`date_to_edx` (lines 82-88)

The two line patterns are
`^\* \*\*(?P<section>.*)\*\*$` and
`^  \* \[(?P<title>.*)\]\((?P<filename>.*)\)$`; both groups are greedy, so
the section name is everything between the leading `* **` and the final
`**`, and the subsection title runs up to the last `](` of the line. -/

/-- Match of the section pattern `^\* \*\*(.*)\*\*$`. -/
def matchSection (line : String) : Option String :=
  if strStartsWith line "* **" ∧ strEndsWith line "**" ∧ 6 ≤ line.data.length
  then some ⟨listDropRight (line.data.drop 4) 2⟩
  else none

/-- Reversed-scan helper: find the last occurrence of `](` in the body
(greedy title group), returning the part before it and the part after. -/
def splitAtLastLinkSep (acc : List Char) : List Char → Option (List Char × List Char)
  | '(' :: ']' :: rest => some (rest.reverse, acc)
  | c :: rest => splitAtLastLinkSep (c :: acc) rest
  | [] => none

/-- Match of the subsection pattern `^  \* \[(.*)\]\((.*)\)$`. -/
def matchSubsection (line : String) : Option (String × String) :=
  if strStartsWith line "  * [" ∧ strEndsWith line ")" ∧ 8 ≤ line.data.length
  then
    match splitAtLastLinkSep [] (listDropRight (line.data.drop 5) 1).reverse with
    | some (title, filename) => some (⟨title⟩, ⟨filename⟩)
    | none => none
  else none

/-- The line loop of `parse_syllabus`: a section line opens a new entry
(`syllabus.append([name, release_dates.get(name), []])`), a subsection
line appends to the last entry (`syllabus[-1][-1].append(...)`, an
`IndexError` when no entry exists yet), any other line is ignored. -/
def parseSyllabusLines (release_dates : List (String × String)) :
    List String → List SyllEntry → Except String (List SyllEntry)
  | [], acc => .ok acc
  | line :: rest, acc =>
    match matchSection line with
    | some name =>
      parseSyllabusLines release_dates rest
        (acc ++ [⟨name, alookup name release_dates, []⟩])
    | none =>
      match matchSubsection line with
      | some (title, filename) =>
        match acc.getLast? with
        | none => .error "list index out of range"
        | some last =>
          parseSyllabusLines release_dates rest
            (acc.dropLast ++ [⟨last.name, last.date, last.subs ++ [(title, filename)]⟩])
      | none => parseSyllabusLines release_dates rest acc

/-- The chapter/sequential construction of `parse_syllabus`: sections are
enumerated from index `i`, and when `parse_all` is false a section whose
looked-up release date is `None` is skipped (its original index still
counts). -/
def buildSeqsData (content_folder : String) (i : Nat) (date : Option String) :
    List (String × String) → Nat → List Sequential
  | [], _ => []
  | (title, filename) :: rest, j =>
    ⟨title, date, "subsec_" ++ pad2 i ++ "_" ++ pad2 j,
      content_folder ++ "/" ++ filename⟩ ::
      buildSeqsData content_folder i date rest (j + 1)

/-- The chapter loop (`for i, section in enumerate(syllabus)`). -/
def buildChaptersData (parse_all : Bool) (content_folder : String) :
    List SyllEntry → Nat → List Chapter
  | [], _ => []
  | sec :: rest, i =>
    if parse_all = false ∧ sec.date = none then
      buildChaptersData parse_all content_folder rest (i + 1)
    else
      ⟨sec.name, sec.date, "sec_" ++ pad2 i,
        buildSeqsData content_folder i sec.date sec.subs 0⟩ ::
        buildChaptersData parse_all content_folder rest (i + 1)

/-- Model of `parse_syllabus`: `split_into_units(syllabus_file)[0]` (an
`IndexError` when there is no unit), then `syll.cells[1]` (an `IndexError`
when the unit has fewer than two cells), then the line loop over
`cell.source.split(chr(10))`, then the chapter construction with
`parse_all` defaulting to false at the single call site in `converter`. -/
def parse_syllabus (release_dates : List (String × String))
    (syllabus_cells : List Cell) (content_folder : String := "")
    (parse_all : Bool := false) : Except String CourseData :=
  match split_into_units syllabus_cells with
  | [] => .error "list index out of range"
  | syll :: _ =>
    match syll.cells.get? 1 with
    | none => .error "list index out of range"
    | some cell =>
      match parseSyllabusLines release_dates (pySplitLines cell.source) [] with
      | .error e => .error e
      | .ok syllabus =>
        .ok ⟨buildChaptersData parse_all content_folder syllabus 0⟩

/-- Month-abbreviation table of `strptime`'s `%b` directive. -/
def monthNum : String → Option Nat
  | "Jan" => some 1 | "Feb" => some 2 | "Mar" => some 3 | "Apr" => some 4
  | "May" => some 5 | "Jun" => some 6 | "Jul" => some 7 | "Aug" => some 8
  | "Sep" => some 9 | "Oct" => some 10 | "Nov" => some 11 | "Dec" => some 12
  | _ => none

/-- Numeric field of `strptime` (`%d` up to two digits, `%Y` up to four). -/
def parseNumField (maxLen : Nat) (s : String) : Option Nat :=
  if s.data ≠ [] ∧ s.data.length ≤ maxLen ∧ s.data.all isDigitCh
  then some (parseDigits s.data)
  else none

/-- Days in a month, with the Gregorian leap rule (`datetime` validation). -/
def daysInMonth (y m : Nat) : Nat :=
  if m = 2 then
    if y % 4 = 0 ∧ (y % 100 ≠ 0 ∨ y % 400 = 0) then 29 else 28
  else if m = 4 ∨ m = 6 ∨ m = 9 ∨ m = 11 then 30
  else 31

/-- Calendar successor used for `timedelta(days=...)`. -/
def nextDay : Nat × Nat × Nat → Nat × Nat × Nat
  | (y, m, d) =>
    if d < daysInMonth y m then (y, m, d + 1)
    else if m < 12 then (y, m + 1, 1)
    else (y + 1, 1, 1)

/-- Add `add_days` days. -/
def addDays : Nat × Nat × Nat → Nat → Nat × Nat × Nat
  | ymd, 0 => ymd
  | ymd, n + 1 => addDays (nextDay ymd) n

/-- Model of `date_to_edx`: parse `'%d %b %Y'`, build
`datetime(year, month, day, 10)` (invalid dates are a `ValueError`, hence
`none`), add `add_days` days and format `'%Y-%m-%dT%H:%M:%SZ'`. -/
def date_to_edx (date : String) (add_days : Nat := 0) : Option String :=
  match (splitChar ' ' date.data).map (fun l => (⟨l⟩ : String)) with
  | [ds, ms, ys] =>
    match parseNumField 2 ds, monthNum ms, parseNumField 4 ys with
    | some d, some m, some y =>
      if 1 ≤ d ∧ d ≤ daysInMonth y m then
        let (y₂, m₂, d₂) := addDays (y, m, d) add_days
        some (pad4 y₂ ++ "-" ++ pad2 m₂ ++ "-" ++ pad2 d₂ ++ "T10:00:00Z")
      else none
    | _, _, _ => none
  | _ => none

end Converter

namespace Converter

/-! ## Course Tree Builder (`converter`, converter.py lines 280-372)

The builder appends one `chapter` element per parsed chapter to the course
root (the root itself comes from the `edx_skeleton` file and carries no
generated identifiers), one `sequential` element per subsection, one
`vertical` per unit of the subsection's notebook and one child per
artifact of the unit.  File writes (`save_html`, the iframe wrapper, the
tar archive) are side effects outside the tree and are not modelled. -/

/-- Children of a vertical, one per artifact, with
`out_url = vertical_url + f"_out_{j:02}"`: an HTML artifact becomes
`SubElement(vertical, 'html', ...)`, an xml component is appended as-is,
receiving `url_name = out_url` only when it does not already declare a
`url_name` of its own. -/
def outsToXml (vertical_url display_name : String) :
    List Artifact → Nat → List XML
  | [], _ => []
  | out :: rest, j =>
    let out_url := vertical_url ++ "_out_" ++ pad2 j
    (match out with
      | .html _ =>
        XML.elem "html"
          [("url_name", out_url), ("display_name", display_name),
            ("filename", out_url)] []
      | .xml x =>
        match alookup "url_name" x.attrsOf with
        | some _ => x
        | none => XML.elem x.tagOf (x.attrsOf ++ [("url_name", out_url)])
            x.childrenOf) ::
      outsToXml vertical_url display_name rest (j + 1)

/-- The unit loop (`for i, unit in enumerate(units)`):
`vertical_url = sequential.url + f'_{i:02}'`, one `vertical` element per
unit with the unit's artifacts as children. -/
def buildVerticals (render : List Cell → String) (parseXml : String → XML)
    (sequential_url : String) (date : Option String) :
    List MUnit → Nat → Except String (List XML)
  | [], _ => .ok []
  | u :: us, i => do
    let vertical_url := sequential_url ++ "_" ++ pad2 i
    let unit_output ← convert_unit render parseXml u date
    let rest ← buildVerticals render parseXml sequential_url date us (i + 1)
    .ok (XML.elem "vertical"
      [("url_name", vertical_url), ("display_name", u.name)]
      (outsToXml vertical_url u.name unit_output 0) :: rest)

/-- Attributes of one `sequential` element: `graded` is
`'true' if chapter.url != 'sec_00' else 'false'`; `format` is `"Research"`
when the display name is `'Assignments'`, `"Self-check"` for any other
sequential outside chapter `sec_00`, and absent otherwise. -/
def sequentialAttrs (chapter_url : String) (sq : Sequential) :
    List (String × String) :=
  let base := [("url_name", sq.url), ("display_name", sq.name),
    ("graded", if chapter_url ≠ "sec_00" then "true" else "false")]
  if sq.name = "Assignments" then base ++ [("format", "Research")]
  else if chapter_url ≠ "sec_00" then base ++ [("format", "Self-check")]
  else base

/-- The sequential loop: each subsection's source notebook is split into
units (`include_header=False`) and converted. -/
def buildSequentials (render : List Cell → String) (parseXml : String → XML)
    (notebooks : String → List Cell) (chapter_url : String) :
    List Sequential → Except String (List XML)
  | [] => .ok []
  | sq :: sqs => do
    let units := split_into_units (notebooks sq.source_notebook) false
    let verts ← buildVerticals render parseXml sq.url sq.date units 0
    let rest ← buildSequentials render parseXml notebooks chapter_url sqs
    .ok (XML.elem "sequential" (sequentialAttrs chapter_url sq) verts :: rest)

/-- Start attribute of a chapter: `date_to_edx(chapter.date)`; a `None`
date is a `TypeError` inside `strptime`, an unparsable one a
`ValueError`. -/
def chapterStart : Option String → Except String String
  | none => .error "strptime() argument 1 must be str, not None"
  | some d =>
    match date_to_edx d with
    | none => .error "time data does not match format"
    | some s => .ok s

/-- The chapter loop of `converter`. -/
def buildChapters (render : List Cell → String) (parseXml : String → XML)
    (notebooks : String → List Cell) :
    List Chapter → Except String (List XML)
  | [] => .ok []
  | ch :: chs => do
    let start ← chapterStart ch.date
    let seqs ← buildSequentials render parseXml notebooks ch.url ch.sequentials
    let rest ← buildChapters render parseXml notebooks chs
    .ok (XML.elem "chapter"
      [("url_name", ch.url), ("display_name", ch.name), ("start", start)]
      seqs :: rest)

/-- Model of the tree-building part of `converter`: load the syllabus
(`parse_syllabus(syllabus_nb, content_folder)`, i.e. `parse_all=False`)
and build the chapter elements appended to the course root.  The file
system is the function `notebooks` from a source-notebook path to its
cell list. -/
def converter_chapters (render : List Cell → String) (parseXml : String → XML)
    (release_dates : List (String × String)) (notebooks : String → List Cell)
    (syllabus_cells : List Cell) (content_folder : String) :
    Except String (List XML) := do
  let data ← parse_syllabus release_dates syllabus_cells content_folder
  buildChapters render parseXml notebooks data.chapters

/-- All `url_name` identifiers of the four-level course tree (chapter,
sequential, vertical, leaf), depth-limited so that the internals of an
embedded component are not traversed. -/
def collectIdsN : Nat → XML → List String
  | 0, _ => []
  | n + 1, .elem _ attrs children =>
    (alookup "url_name" attrs).toList ++
      children.flatMap (collectIdsN n)

/-- Identifiers of the whole built chapter forest. -/
def collectIds (chapters : List XML) : List String :=
  chapters.flatMap (collectIdsN 4)

/-! ## Serializer dollar rewrite (`save_xml`, converter.py lines 211-216)

`re.sub(r"\$\$(.*?)\$\$", r"\[\1\]", text)` followed by
`re.sub(r"\$(.*?)\$", r"\(\1\)", text)`.  The groups are non-greedy and
`.` does not match a newline, so after an opening delimiter the earliest
closing delimiter on the same line is taken.  The scanners below carry
fuel (any value at least the input length) for kernel reducibility. -/

/-- After an opening `$$`, find the earliest closing `$$` on the line:
returns the enclosed characters and the characters after the closing
delimiter. -/
def findCloseD : List Char → Option (List Char × List Char)
  | [] => none
  | c :: rest =>
    if c = '$' ∧ rest.head? = some '$' then some ([], rest.tail)
    else if c = '\n' then none
    else
      match findCloseD rest with
      | some (x, r) => some (c :: x, r)
      | none => none

/-- Scanner for `re.sub(r"\$\$(.*?)\$\$", r"\[\1\]", ·)`: at each position
an anchored match of the pattern is tried, otherwise one character is
copied. -/
def subDoubleGo : Nat → List Char → List Char
  | _, [] => []
  | 0, l => l
  | fuel + 1, c :: cs =>
    if c = '$' ∧ cs.head? = some '$' then
      match findCloseD cs.tail with
      | some (x, r) => '\\' :: '[' :: (x ++ '\\' :: ']' :: subDoubleGo fuel r)
      | none => '$' :: subDoubleGo fuel cs
    else c :: subDoubleGo fuel cs

/-- After an opening `$`, find the earliest closing `$` on the line. -/
def findCloseS : List Char → Option (List Char × List Char)
  | [] => none
  | c :: rest =>
    if c = '$' then some ([], rest)
    else if c = '\n' then none
    else
      match findCloseS rest with
      | some (x, r) => some (c :: x, r)
      | none => none

/-- Scanner for `re.sub(r"\$(.*?)\$", r"\(\1\)", ·)`. -/
def subSingleGo : Nat → List Char → List Char
  | _, [] => []
  | 0, l => l
  | fuel + 1, c :: cs =>
    if c = '$' then
      match findCloseS cs with
      | some (x, r) => '\\' :: '(' :: (x ++ '\\' :: ')' :: subSingleGo fuel r)
      | none => '$' :: subSingleGo fuel cs
    else c :: subSingleGo fuel cs

/-- The textual math-delimiter rewrite `save_xml` applies to the
pretty-printed serialization before writing it out. -/
def save_xml_rewrite (text : String) : String :=
  ⟨subSingleGo (subDoubleGo text.data.length text.data).length
    (subDoubleGo text.data.length text.data)⟩

end Converter

namespace Converter

/-! ## Basic lemmas about the string utilities -/

theorem sdata_append (a b : String) : (a ++ b).data = a.data ++ b.data := rfl

theorem sext {a b : String} (h : a.data = b.data) : a = b := by
  cases a; cases b; exact congrArg String.mk h

theorem digitVal_digitChar {d : Nat} (h : d < 10) :
    digitVal (digitChar d) = d := by
  interval_cases d <;> rfl

theorem isDigitCh_digitChar {d : Nat} (h : d < 10) :
    isDigitCh (digitChar d) = true := by
  interval_cases d <;> rfl

theorem parseDigits_append (l : List Char) (c : Char) :
    parseDigits (l ++ [c]) = 10 * parseDigits l + digitVal c := by
  simp [parseDigits, List.foldl_append, Nat.mul_comm]

theorem parseDigits_natDigitsAux :
    ∀ fuel n, n < fuel → parseDigits (natDigitsAux fuel n) = n := by
  intro fuel
  induction fuel with
  | zero => intro n h; omega
  | succ fuel ih =>
    intro n h
    by_cases h10 : n < 10
    · simp [natDigitsAux, h10, parseDigits, digitVal_digitChar h10]
    · have hdiv : n / 10 < fuel := by
        have := Nat.div_lt_self (by omega : 0 < n) (by omega : 1 < 10)
        omega
      simp only [natDigitsAux, if_neg h10]
      rw [parseDigits_append, ih _ hdiv, digitVal_digitChar (Nat.mod_lt _ (by omega))]
      omega

theorem mem_natDigitsAux_digit :
    ∀ fuel n c, c ∈ natDigitsAux fuel n → isDigitCh c = true := by
  intro fuel
  induction fuel with
  | zero => intro n c h; simp [natDigitsAux] at h
  | succ fuel ih =>
    intro n c h
    by_cases h10 : n < 10
    · simp [natDigitsAux, h10] at h
      rw [h]; exact isDigitCh_digitChar h10
    · simp only [natDigitsAux, if_neg h10, List.mem_append, List.mem_singleton] at h
      rcases h with h | h
      · exact ih _ _ h
      · rw [h]; exact isDigitCh_digitChar (Nat.mod_lt _ (by omega))

theorem parseDigits_zero_cons (l : List Char) :
    parseDigits ('0' :: l) = parseDigits l := rfl

theorem parseDigits_pad2 (n : Nat) : parseDigits (pad2 n).data = n := by
  by_cases h : n < 10
  · have : (pad2 n).data = '0' :: natDigitsAux (n + 1) n := by
      simp [pad2, h, natToString, sdata_append]
    rw [this, parseDigits_zero_cons, parseDigits_natDigitsAux _ _ (Nat.lt_succ_self n)]
  · have : (pad2 n).data = natDigitsAux (n + 1) n := by
      simp [pad2, h, natToString]
    rw [this, parseDigits_natDigitsAux _ _ (Nat.lt_succ_self n)]

theorem pad2_inj {m n : Nat} (h : pad2 m = pad2 n) : m = n := by
  have := congrArg (fun s => parseDigits s.data) h
  simpa [parseDigits_pad2] using this

theorem mem_pad2_digit {c : Char} {n : Nat} (h : c ∈ (pad2 n).data) :
    isDigitCh c = true := by
  by_cases h10 : n < 10
  · have hd : (pad2 n).data = '0' :: natDigitsAux (n + 1) n := by
      simp [pad2, h10, natToString, sdata_append]
    rw [hd] at h
    rcases List.mem_cons.mp h with h | h
    · rw [h]; rfl
    · exact mem_natDigitsAux_digit _ _ _ h
  · have hd : (pad2 n).data = natDigitsAux (n + 1) n := by
      simp [pad2, h10, natToString]
    rw [hd] at h
    exact mem_natDigitsAux_digit _ _ _ h

theorem underscore_not_mem_pad2 (n : Nat) : '_' ∉ (pad2 n).data := by
  intro h
  have := mem_pad2_digit h
  simp [isDigitCh] at this

theorem alookup_append_of_none {k : String} {l₁ l₂ : List (String × String)}
    (h : alookup k l₁ = none) : alookup k (l₁ ++ l₂) = alookup k l₂ := by
  induction l₁ with
  | nil => rfl
  | cons p rest ih =>
    obtain ⟨k₁, v⟩ := p
    by_cases hk : k₁ = k
    · simp [alookup, hk] at h
    · simp only [alookup, if_neg hk, List.cons_append] at h ⊢
      exact ih h

/-! ## C6: a code cell with no recorded outputs is skipped entirely -/

theorem convertUnitGo_skip (render : List Cell → String) (parseXml : String → XML)
    (c : Cell) (post : List Cell) (hct : ¬ c.cell_type = "markdown")
    (hout : c.outputs = none) :
    ∀ pre uo ncs,
      convertUnitGo render parseXml uo ncs (pre ++ c :: post) =
        convertUnitGo render parseXml uo ncs (pre ++ post) := by
  intro pre
  induction pre with
  | nil =>
    intro uo ncs
    simp only [List.nil_append, convertUnitGo, if_neg hct, hout]
  | cons p₁ rest ih =>
    intro uo ncs
    by_cases hm : p₁.cell_type = "markdown"
    · simp only [List.cons_append, convertUnitGo, if_pos hm]
      exact ih _ _
    · rcases h₁ : p₁.outputs with _ | outs
      · simp only [List.cons_append, convertUnitGo, if_neg hm, h₁]
        exact ih _ _
      · rcases h₂ : outs.filterMap getPayload with _ | ⟨x, _ | ⟨y, tl⟩⟩ <;>
          simp only [List.cons_append, convertUnitGo, if_neg hm, h₁, h₂]
        · exact ih _ _
        · exact ih _ _

/-- C6: for every unit processed by the Cell Classifier (`convert_unit`), a
code cell that carries no recorded outputs (no `outputs` attribute, the
`hasattr` check of line 244) is skipped entirely: the unit converts to
exactly the same artifact list as the unit with that cell removed, so the
cell contributes no artifact. -/
theorem convert_unit_skips_outputless_cell
    (render : List Cell → String) (parseXml : String → XML)
    (name : String) (pre post : List Cell) (c : Cell) (date : Option String)
    (hct : ¬ c.cell_type = "markdown") (hout : c.outputs = none) :
    convert_unit render parseXml ⟨name, pre ++ c :: post⟩ date =
      convert_unit render parseXml ⟨name, pre ++ post⟩ date :=
  convertUnitGo_skip render parseXml c post hct hout pre [] []

/-- Witness for C6 at a concrete unit: a code cell with no `outputs`
attribute between a markdown cell and a payload-free code cell changes
nothing. -/
theorem convert_unit_skips_outputless_cell_witness :
    (¬ (⟨"code", "empty", none⟩ : Cell).cell_type = "markdown") ∧
      convert_unit (fun _ => "HTML") (fun _ => XML.elem "x" [] [])
          ⟨"U", [⟨"markdown", "text", none⟩] ++ ⟨"code", "empty", none⟩ ::
            [⟨"code", "print", some [⟨[]⟩]⟩]⟩ none =
        convert_unit (fun _ => "HTML") (fun _ => XML.elem "x" [] [])
          ⟨"U", [⟨"markdown", "text", none⟩] ++ [⟨"code", "print", some [⟨[]⟩]⟩]⟩ none :=
  ⟨by decide,
    convert_unit_skips_outputless_cell (fun _ => "HTML")
      (fun _ => XML.elem "x" [] []) "U" [⟨"markdown", "text", none⟩]
      [⟨"code", "print", some [⟨[]⟩]⟩] ⟨"code", "empty", none⟩ none
      (by decide) rfl⟩

end Converter

namespace Converter

/-! ## C1: more than one olxml payload in a cell is a fatal error -/

theorem convertUnitGo_error (render : List Cell → String) (parseXml : String → XML) :
    ∀ cells uo ncs,
      (∃ c ∈ cells, ¬ c.cell_type = "markdown" ∧ 2 ≤ (cellXmlComponents c).length) →
      convertUnitGo render parseXml uo ncs cells =
        .error "More than 1 xml component in a cell." := by
  intro cells
  induction cells with
  | nil => intro uo ncs h; simp at h
  | cons c rest ih =>
    intro uo ncs h
    rcases h with ⟨c₁, hmem, hct, hlen⟩
    rcases List.mem_cons.mp hmem with rfl | hmem₁
    · -- the offending cell is at the front: the loop raises here (or the
      -- shape of its component list is impossible)
      rcases hout : c₁.outputs with _ | outs
      · simp [cellXmlComponents, hout] at hlen
      · rcases h₂ : outs.filterMap getPayload with _ | ⟨x, _ | ⟨y, tl⟩⟩
        · simp [cellXmlComponents, hout, h₂] at hlen
        · simp [cellXmlComponents, hout, h₂] at hlen
        · simp only [convertUnitGo, if_neg hct, hout, h₂]
    · by_cases hm : c.cell_type = "markdown"
      · simp only [convertUnitGo, if_pos hm]
        exact ih _ _ ⟨c₁, hmem₁, hct, hlen⟩
      · rcases h₁ : c.outputs with _ | outs
        · simp only [convertUnitGo, if_neg hm, h₁]
          exact ih _ _ ⟨c₁, hmem₁, hct, hlen⟩
        · rcases h₂ : outs.filterMap getPayload with _ | ⟨x, _ | ⟨y, tl⟩⟩ <;>
            simp only [convertUnitGo, if_neg hm, h₁, h₂]
          · exact ih _ _ ⟨c₁, hmem₁, hct, hlen⟩
          · exact ih _ _ ⟨c₁, hmem₁, hct, hlen⟩

/-- C1: whenever a unit contains a code cell more than one of whose
outputs carries an `application/vnd.edx.olxml+xml` payload, `convert_unit`
fails with the fatal `RuntimeError('More than 1 xml component in a
cell.')` — no artifact list is produced, so the compilation (and hence
the archive) is aborted. -/
theorem convert_unit_multiple_components_error
    (render : List Cell → String) (parseXml : String → XML)
    (unit : MUnit) (date : Option String)
    (h : ∃ c ∈ unit.cells,
      ¬ c.cell_type = "markdown" ∧ 2 ≤ (cellXmlComponents c).length) :
    convert_unit render parseXml unit date =
      .error "More than 1 xml component in a cell." :=
  convertUnitGo_error render parseXml unit.cells [] [] h

/-- Witness for C1: a unit with one code cell carrying two olxml payload
outputs aborts. -/
theorem convert_unit_multiple_components_error_witness :
    convert_unit (fun _ => "HTML") (fun _ => XML.elem "x" [] [])
        ⟨"U", [⟨"markdown", "intro", none⟩,
          ⟨"code", "src", some [⟨[(olxmlMime, "<video/>")]⟩,
            ⟨[(olxmlMime, "<problem/>")]⟩]⟩]⟩ none =
      .error "More than 1 xml component in a cell." :=
  convert_unit_multiple_components_error (fun _ => "HTML")
    (fun _ => XML.elem "x" [] [])
    ⟨"U", [⟨"markdown", "intro", none⟩,
      ⟨"code", "src", some [⟨[(olxmlMime, "<video/>")]⟩,
        ⟨[(olxmlMime, "<problem/>")]⟩]⟩]⟩ none
    ⟨⟨"code", "src", some [⟨[(olxmlMime, "<video/>")]⟩,
        ⟨[(olxmlMime, "<problem/>")]⟩]⟩, by decide, by decide, by decide⟩

end Converter

namespace Converter

/-! ## C8: mutability of content blocks during rendering

`convert_normal_cells` assigns `cell.source = re.sub(...)` on every
markdown cell of the batch before rendering, so a prose block containing
an equation delimiter is modified in place; blocks without a backslash
are untouched. -/

theorem matchDelim_none_of_head {kw : List Char} {c : Char} {cs : List Char}
    (h : ¬ c = '\\') : matchDelim kw (c :: cs) = none := by
  have hpre : isPrefixChars ('\\' :: kw ++ ['{']) (c :: cs) = false := by
    simp [isPrefixChars]
    intro hc
    exact absurd hc.symm h
  unfold matchDelim
  rw [hpre]
  rfl

theorem eqDelimGo_of_no_backslash (kw : List Char) (rep : Char) :
    ∀ fuel l, '\\' ∉ l → eqDelimGo kw rep fuel l = l := by
  intro fuel
  induction fuel with
  | zero => intro l _; cases l <;> rfl
  | succ fuel ih =>
    intro l h
    cases l with
    | nil => rfl
    | cons c cs =>
      have hc : ¬ c = '\\' := fun hc => h (hc ▸ List.mem_cons_self c cs)
      rw [eqDelimGo, matchDelim_none_of_head hc,
        ih cs (fun hm => h (List.mem_cons_of_mem c hm))]

theorem eqSub_of_no_backslash {s : String} (h : '\\' ∉ s.data) : eqSub s = s := by
  unfold eqSub
  rw [eqDelimGo_of_no_backslash _ _ _ _ h, eqDelimGo_of_no_backslash _ _ _ _ h]

theorem eqRewriteCell_of_no_backslash {c : Cell} (h : '\\' ∉ c.source.data) :
    eqRewriteCell c = c := by
  unfold eqRewriteCell
  split
  · rw [eqSub_of_no_backslash h]
  · rfl

/-- Counterexample to C8 as stated: `convert_normal_cells` does modify an
input content block — a markdown cell whose raw text holds an equation
delimiter comes back with a different `source` after its batch is
rendered. -/
theorem convert_normal_cells_mutates_counterexample :
    ¬ ((convert_normal_cells (fun _ => "")
          [⟨"markdown", "\\begin{equation}E = mc^2\\end{equation}", none⟩]).1 =
        [⟨"markdown", "\\begin{equation}E = mc^2\\end{equation}", none⟩]) := by
  decide

/-- C8 (amended): a content block is only ever modified by the in-place
equation-delimiter rewrite of `convert_normal_cells`; every batch whose
cells contain no backslash (hence no `equation` delimiter) is passed to
the renderer completely unmodified. -/
theorem convert_normal_cells_frame_amended
    (render : List Cell → String) (cells : List Cell)
    (h : ∀ c ∈ cells, '\\' ∉ c.source.data) :
    (convert_normal_cells render cells).1 = cells := by
  unfold convert_normal_cells
  calc cells.map eqRewriteCell
      = cells.map id :=
        List.map_congr_left (fun c hc => eqRewriteCell_of_no_backslash (h c hc))
    _ = cells := cells.map_id

/-- Witness for the amended C8 at a concrete backslash-free batch. -/
theorem convert_normal_cells_frame_amended_witness :
    (convert_normal_cells (fun _ => "")
        [⟨"markdown", "plain prose", none⟩, ⟨"code", "print(1)", some []⟩]).1 =
      [⟨"markdown", "plain prose", none⟩, ⟨"code", "print(1)", some []⟩] :=
  convert_normal_cells_frame_amended (fun _ => "")
    [⟨"markdown", "plain prose", none⟩, ⟨"code", "print(1)", some []⟩]
    (by decide)

end Converter

namespace Converter

/-! ## C2: splitting on two top-level headings -/

theorem buildUnitsAux_skip (ih : Bool) :
    ∀ cs, (∀ c ∈ cs, isHeaderCell c = false) →
      ∀ done rest, buildUnitsAux ih done none (cs ++ rest) =
        buildUnitsAux ih done none rest := by
  intro cs
  induction cs with
  | nil => intro _ done rest; rfl
  | cons c cs ihc =>
    intro h done rest
    have hc : isHeaderCell c = false := h c (List.mem_cons_self c cs)
    simp only [List.cons_append, buildUnitsAux, hc, Bool.false_eq_true,
      if_false]
    exact ihc (fun c₁ hm => h c₁ (List.mem_cons_of_mem c hm)) done rest

theorem buildUnitsAux_absorb (ih : Bool) :
    ∀ cs, (∀ c ∈ cs, isHeaderCell c = false) →
      ∀ done u rest, buildUnitsAux ih done (some u) (cs ++ rest) =
        buildUnitsAux ih done (some ⟨u.name, u.cells ++ cs⟩) rest := by
  intro cs
  induction cs with
  | nil => intro _ done u rest; simp
  | cons c cs ihc =>
    intro h done u rest
    have hc : isHeaderCell c = false := h c (List.mem_cons_self c cs)
    simp only [List.cons_append, buildUnitsAux, hc, Bool.false_eq_true,
      if_false, List.append_eq]
    rw [ihc (fun c₁ hm => h c₁ (List.mem_cons_of_mem c hm)) done _ rest]
    simp

theorem buildUnitsAux_absorb_nil (ih : Bool) (cs : List Cell)
    (h : ∀ c ∈ cs, isHeaderCell c = false) (done : List MUnit) (u : MUnit) :
    buildUnitsAux ih done (some u) cs = done ++ [⟨u.name, u.cells ++ cs⟩] := by
  have h₁ := buildUnitsAux_absorb ih cs h done u []
  rw [List.append_nil] at h₁
  rw [h₁]
  rfl

/-- C2: when the cell-splitting pass turns a document into some discarded
preamble pieces, a heading cell titled `A`, heading-free cells `mid`, a
heading cell titled `B` and heading-free cells `post`, then
`split_into_units` returns exactly two units named `A` and `B`: unit `A`
holds exactly the cells between its heading and the next one, unit `B`
those after its heading, the preamble is discarded, and each heading cell
itself is kept in its unit exactly when `include_header` is set. -/
theorem split_into_units_two_headings (include_header : Bool)
    (cells pre mid post : List Cell) (hA hB : Cell)
    (hsplit : splitCells cells = pre ++ hA :: (mid ++ hB :: post))
    (hpre : ∀ c ∈ pre, isHeaderCell c = false)
    (hmid : ∀ c ∈ mid, isHeaderCell c = false)
    (hpost : ∀ c ∈ post, isHeaderCell c = false)
    (hha : isHeaderCell hA = true) (hhb : isHeaderCell hB = true)
    (hna : headingTitle hA.source = "A") (hnb : headingTitle hB.source = "B") :
    split_into_units cells include_header =
      [⟨"A", (if include_header then [hA] else []) ++ mid⟩,
        ⟨"B", (if include_header then [hB] else []) ++ post⟩] := by
  unfold split_into_units
  rw [hsplit]
  rw [buildUnitsAux_skip include_header pre hpre]
  simp only [buildUnitsAux, hha, if_true, hna]
  rw [buildUnitsAux_absorb include_header mid hmid]
  simp only [buildUnitsAux, hhb, if_true, hnb]
  rw [buildUnitsAux_absorb_nil include_header post hpost]
  simp

/-- Witness for C2: the document `"# A\nhello\n# B\nworld"` splits into
units `A` and `B` containing exactly the text between the headings. -/
theorem split_into_units_two_headings_witness :
    split_into_units [⟨"markdown", "# A\nhello\n# B\nworld", none⟩] true =
      [⟨"A", [⟨"markdown", "# A", none⟩, ⟨"markdown", "\nhello\n", none⟩]⟩,
        ⟨"B", [⟨"markdown", "# B", none⟩, ⟨"markdown", "\nworld", none⟩]⟩] :=
  split_into_units_two_headings true
    [⟨"markdown", "# A\nhello\n# B\nworld", none⟩]
    [⟨"markdown", "", none⟩] [⟨"markdown", "\nhello\n", none⟩]
    [⟨"markdown", "\nworld", none⟩]
    ⟨"markdown", "# A", none⟩ ⟨"markdown", "# B", none⟩
    (by decide) (by decide) (by decide) (by decide) (by decide) (by decide)
    (by decide) (by decide)

end Converter

namespace Converter

/-! ## C4: the math-delimiter rewrite of `save_xml` -/

theorem subDoubleGo_of_no_dollar :
    ∀ fuel l, '$' ∉ l → subDoubleGo fuel l = l := by
  intro fuel
  induction fuel with
  | zero => intro l _; cases l <;> rfl
  | succ fuel ihf =>
    intro l h
    cases l with
    | nil => rfl
    | cons c cs =>
      have hc : ¬ c = '$' := fun hc => h (hc ▸ List.mem_cons_self c cs)
      have hcs : '$' ∉ cs := fun hm => h (List.mem_cons_of_mem c hm)
      simp only [subDoubleGo, hc, false_and, if_false, ihf cs hcs]

theorem subSingleGo_of_no_dollar :
    ∀ fuel l, '$' ∉ l → subSingleGo fuel l = l := by
  intro fuel
  induction fuel with
  | zero => intro l _; cases l <;> rfl
  | succ fuel ihf =>
    intro l h
    cases l with
    | nil => rfl
    | cons c cs =>
      have hc : ¬ c = '$' := fun hc => h (hc ▸ List.mem_cons_self c cs)
      have hcs : '$' ∉ cs := fun hm => h (List.mem_cons_of_mem c hm)
      simp only [subSingleGo, hc, if_false, ihf cs hcs]

theorem findCloseD_of_no_dollar : ∀ l, '$' ∉ l → findCloseD l = none := by
  intro l
  induction l with
  | nil => intro _; rfl
  | cons c cs ihl =>
    intro h
    have hc : ¬ c = '$' := fun hc => h (hc ▸ List.mem_cons_self c cs)
    have hcs : '$' ∉ cs := fun hm => h (List.mem_cons_of_mem c hm)
    simp only [findCloseD]
    rw [if_neg (fun hand => hc hand.1)]
    by_cases hn : c = '\n'
    · rw [if_pos hn]
    · rw [if_neg hn, ihl hcs]

theorem findCloseS_of_no_dollar : ∀ l, '$' ∉ l → findCloseS l = none := by
  intro l
  induction l with
  | nil => intro _; rfl
  | cons c cs ihl =>
    intro h
    have hc : ¬ c = '$' := fun hc => h (hc ▸ List.mem_cons_self c cs)
    have hcs : '$' ∉ cs := fun hm => h (List.mem_cons_of_mem c hm)
    simp only [findCloseS]
    rw [if_neg hc]
    by_cases hn : c = '\n'
    · rw [if_pos hn]
    · rw [if_neg hn, ihl hcs]

theorem findCloseD_found :
    ∀ x b, '$' ∉ x → '\n' ∉ x →
      findCloseD (x ++ '$' :: '$' :: b) = some (x, b) := by
  intro x
  induction x with
  | nil => intro b _ _; simp [findCloseD]
  | cons c x ihx =>
    intro b h hn
    have hc : ¬ c = '$' := fun hc => h (hc ▸ List.mem_cons_self c x)
    have hcn : ¬ c = '\n' := fun hc => hn (hc ▸ List.mem_cons_self c x)
    simp only [List.cons_append, List.append_eq, findCloseD, hc, false_and,
      if_false, hcn,
      ihx b (fun hm => h (List.mem_cons_of_mem c hm))
        (fun hm => hn (List.mem_cons_of_mem c hm))]

theorem findCloseS_found :
    ∀ x b, '$' ∉ x → '\n' ∉ x →
      findCloseS (x ++ '$' :: b) = some (x, b) := by
  intro x
  induction x with
  | nil => intro b _ _; simp [findCloseS]
  | cons c x ihx =>
    intro b h hn
    have hc : ¬ c = '$' := fun hc => h (hc ▸ List.mem_cons_self c x)
    have hcn : ¬ c = '\n' := fun hc => hn (hc ▸ List.mem_cons_self c x)
    simp only [List.cons_append, List.append_eq, findCloseS, hc, if_false, hcn,
      ihx b (fun hm => h (List.mem_cons_of_mem c hm))
        (fun hm => hn (List.mem_cons_of_mem c hm))]

theorem subDoubleGo_clean_prefix :
    ∀ a fuel l, '$' ∉ a →
      subDoubleGo (a.length + fuel) (a ++ l) = a ++ subDoubleGo fuel l := by
  intro a
  induction a with
  | nil => intro fuel l _; simp
  | cons c a iha =>
    intro fuel l h
    have hc : ¬ c = '$' := fun hc => h (hc ▸ List.mem_cons_self c a)
    have hlen : (c :: a).length + fuel = (a.length + fuel) + 1 := by
      simp [List.length_cons]; omega
    rw [hlen, List.cons_append]
    simp only [subDoubleGo, hc, false_and, if_false]
    rw [iha fuel l (fun hm => h (List.mem_cons_of_mem c hm))]
    rfl

theorem subSingleGo_clean_prefix :
    ∀ a fuel l, '$' ∉ a →
      subSingleGo (a.length + fuel) (a ++ l) = a ++ subSingleGo fuel l := by
  intro a
  induction a with
  | nil => intro fuel l _; simp
  | cons c a iha =>
    intro fuel l h
    have hc : ¬ c = '$' := fun hc => h (hc ▸ List.mem_cons_self c a)
    have hlen : (c :: a).length + fuel = (a.length + fuel) + 1 := by
      simp [List.length_cons]; omega
    rw [hlen, List.cons_append]
    simp only [subSingleGo, hc, if_false]
    rw [iha fuel l (fun hm => h (List.mem_cons_of_mem c hm))]
    rfl

theorem subDoubleGo_match (fuel : Nat) (x b : List Char)
    (hx : '$' ∉ x) (hn : '\n' ∉ x) :
    subDoubleGo (fuel + 1) ('$' :: '$' :: (x ++ '$' :: '$' :: b)) =
      '\\' :: '[' :: (x ++ '\\' :: ']' :: subDoubleGo fuel b) := by
  simp only [subDoubleGo, List.head?_cons, and_self, if_true, List.tail_cons,
    findCloseD_found x b hx hn]

theorem subSingleGo_match (fuel : Nat) (x b : List Char)
    (hx : '$' ∉ x) (hn : '\n' ∉ x) :
    subSingleGo (fuel + 1) ('$' :: (x ++ '$' :: b)) =
      '\\' :: '(' :: (x ++ '\\' :: ')' :: subSingleGo fuel b) := by
  simp only [subSingleGo, if_true, findCloseS_found x b hx hn]

theorem subDoubleGo_lone_tail (b : List Char) (hb : '$' ∉ b) :
    ∀ fuel, subDoubleGo fuel ('$' :: b) = '$' :: b := by
  intro fuel
  cases fuel with
  | zero => rfl
  | succ fuel =>
    have hh : ¬ b.head? = some '$' := by
      cases b with
      | nil => simp
      | cons c cs =>
        simp only [List.head?_cons, Option.some.injEq]
        exact fun hc => hb (hc ▸ List.mem_cons_self c cs)
    simp only [subDoubleGo, hh, and_false, if_false,
      subDoubleGo_of_no_dollar fuel b hb]

theorem subDoubleGo_lone (x b : List Char) (hx : '$' ∉ x) (hb : '$' ∉ b) :
    ∀ fuel, subDoubleGo fuel (x ++ '$' :: b) = x ++ '$' :: b := by
  induction x with
  | nil => intro fuel; simpa using subDoubleGo_lone_tail b hb fuel
  | cons c x ihx =>
    intro fuel
    have hc : ¬ c = '$' := fun hc => hx (hc ▸ List.mem_cons_self c x)
    have hx₁ : '$' ∉ x := fun hm => hx (List.mem_cons_of_mem c hm)
    cases fuel with
    | zero => rfl
    | succ fuel =>
      simp only [List.cons_append, List.append_eq, subDoubleGo, hc, false_and,
        if_false, ihx hx₁ fuel]

theorem subDoubleGo_single_pair (a x b : List Char)
    (ha : '$' ∉ a) (hx : '$' ∉ x) (hb : '$' ∉ b) :
    ∀ fuel, subDoubleGo fuel (a ++ '$' :: (x ++ '$' :: b)) =
      a ++ '$' :: (x ++ '$' :: b) := by
  induction a with
  | nil =>
    intro fuel
    cases fuel with
    | zero => rfl
    | succ fuel =>
      cases x with
      | nil =>
        simp only [List.nil_append, List.nil_append, subDoubleGo,
          List.head?_cons, and_self, if_true, List.tail_cons,
          findCloseD_of_no_dollar b hb]
        rw [subDoubleGo_lone_tail b hb fuel]
      | cons c x =>
        have hc : ¬ c = '$' := fun hc => hx (hc ▸ List.mem_cons_self c x)
        have hx₁ : '$' ∉ x := fun hm => hx (List.mem_cons_of_mem c hm)
        have hh : ¬ (c :: (x ++ '$' :: b)).head? = some '$' := by
          simp only [List.head?_cons, Option.some.injEq]
          exact fun h => hc h
        simp only [List.nil_append, List.cons_append, subDoubleGo, hh,
          and_false, if_false]
        have := subDoubleGo_lone (c :: x) b hx hb fuel
        simpa using this
  | cons c a iha =>
    intro fuel
    have hc : ¬ c = '$' := fun hc => ha (hc ▸ List.mem_cons_self c a)
    have ha₁ : '$' ∉ a := fun hm => ha (List.mem_cons_of_mem c hm)
    cases fuel with
    | zero => rfl
    | succ fuel =>
      simp only [List.cons_append, List.append_eq, subDoubleGo, hc, false_and,
        if_false, iha ha₁ fuel]

end Converter

namespace Converter

theorem data_dollar2 : ("$$" : String).data = ['$', '$'] := rfl

theorem data_dollar1 : ("$" : String).data = ['$'] := rfl

theorem save_xml_rewrite_fixed {s : String} (h : '$' ∉ s.data) :
    save_xml_rewrite s = s := by
  unfold save_xml_rewrite
  rw [subDoubleGo_of_no_dollar _ _ h, subSingleGo_of_no_dollar _ _ h]

theorem save_xml_rewrite_double (a x b : String)
    (ha : '$' ∉ a.data) (hx : '$' ∉ x.data) (hxn : '\n' ∉ x.data)
    (hb : '$' ∉ b.data) :
    save_xml_rewrite (a ++ "$$" ++ x ++ "$$" ++ b) =
      a ++ "\\[" ++ x ++ "\\]" ++ b := by
  have hdata : (a ++ "$$" ++ x ++ "$$" ++ b).data =
      a.data ++ ('$' :: '$' :: (x.data ++ '$' :: '$' :: b.data)) := by
    simp [sdata_append, data_dollar2, List.append_assoc]
  unfold save_xml_rewrite
  rw [hdata]
  have hlen : (a.data ++ ('$' :: '$' :: (x.data ++ '$' :: '$' :: b.data))).length
      = a.data.length + ((x.data.length + b.data.length + 3) + 1) := by
    simp [List.length_append]
    omega
  rw [hlen, subDoubleGo_clean_prefix a.data _ _ ha,
    subDoubleGo_match _ x.data _ hx hxn,
    subDoubleGo_of_no_dollar _ _ hb]
  have hr : '$' ∉ a.data ++ '\\' :: '[' :: (x.data ++ '\\' :: ']' :: b.data) := by
    intro hm
    rcases List.mem_append.mp hm with hm | hm
    · exact ha hm
    · rcases List.mem_cons.mp hm with hm | hm
      · exact absurd hm (by decide)
      · rcases List.mem_cons.mp hm with hm | hm
        · exact absurd hm (by decide)
        · rcases List.mem_append.mp hm with hm | hm
          · exact hx hm
          · rcases List.mem_cons.mp hm with hm | hm
            · exact absurd hm (by decide)
            · rcases List.mem_cons.mp hm with hm | hm
              · exact absurd hm (by decide)
              · exact hb hm
  rw [subSingleGo_of_no_dollar _ _ hr]
  apply sext
  simp [sdata_append, List.append_assoc]

theorem save_xml_rewrite_single (a x b : String)
    (ha : '$' ∉ a.data) (hx : '$' ∉ x.data) (hxn : '\n' ∉ x.data)
    (hb : '$' ∉ b.data) :
    save_xml_rewrite (a ++ "$" ++ x ++ "$" ++ b) =
      a ++ "\\(" ++ x ++ "\\)" ++ b := by
  have hdata : (a ++ "$" ++ x ++ "$" ++ b).data =
      a.data ++ ('$' :: (x.data ++ '$' :: b.data)) := by
    simp [sdata_append, data_dollar1, List.append_assoc]
  unfold save_xml_rewrite
  rw [hdata]
  rw [subDoubleGo_single_pair a.data x.data b.data ha hx hb]
  have hlen : (a.data ++ ('$' :: (x.data ++ '$' :: b.data))).length
      = a.data.length + ((x.data.length + b.data.length + 1) + 1) := by
    simp [List.length_append]
    omega
  rw [hlen, subSingleGo_clean_prefix a.data _ _ ha,
    subSingleGo_match _ x.data _ hx hxn,
    subSingleGo_of_no_dollar _ _ hb]
  apply sext
  simp [sdata_append, List.append_assoc]

/-- C4: the math-delimiter rewrite applied by `save_xml` maps an occurrence
of `$$x$$` anywhere in the serialized text to `\[x\]`, maps an occurrence
of `$x$` anywhere to `\(x\)`, and on any text free of dollar delimiters it
is the identity and hence idempotent.  (`x` is a single-line,
dollar-free group, matching the non-greedy, newline-free `(.*?)` group of
the source patterns; the surrounding text is dollar-free, which pins down
the matched occurrence.) -/
theorem save_xml_math_rewrite_spec (a x b : String)
    (ha : '$' ∉ a.data) (hx : '$' ∉ x.data) (hxn : '\n' ∉ x.data)
    (hb : '$' ∉ b.data) :
    save_xml_rewrite (a ++ "$$" ++ x ++ "$$" ++ b) =
        a ++ "\\[" ++ x ++ "\\]" ++ b ∧
      save_xml_rewrite (a ++ "$" ++ x ++ "$" ++ b) =
        a ++ "\\(" ++ x ++ "\\)" ++ b ∧
      ∀ s : String, '$' ∉ s.data →
        save_xml_rewrite s = s ∧
          save_xml_rewrite (save_xml_rewrite s) = save_xml_rewrite s := by
  refine ⟨save_xml_rewrite_double a x b ha hx hxn hb,
    save_xml_rewrite_single a x b ha hx hxn hb, fun s hs => ?_⟩
  have hfix := save_xml_rewrite_fixed hs
  exact ⟨hfix, by rw [hfix]; exact hfix⟩

/-- Witness for C4 at concrete text. -/
theorem save_xml_math_rewrite_spec_witness :
    save_xml_rewrite ("<p>" ++ "$$" ++ "E=mc^2" ++ "$$" ++ "</p>") =
        "<p>" ++ "\\[" ++ "E=mc^2" ++ "\\]" ++ "</p>" ∧
      save_xml_rewrite ("<p>" ++ "$" ++ "E=mc^2" ++ "$" ++ "</p>") =
        "<p>" ++ "\\(" ++ "E=mc^2" ++ "\\)" ++ "</p>" ∧
      ∀ s : String, '$' ∉ s.data →
        save_xml_rewrite s = s ∧
          save_xml_rewrite (save_xml_rewrite s) = save_xml_rewrite s :=
  save_xml_math_rewrite_spec "<p>" "E=mc^2" "</p>"
    (by decide) (by decide) (by decide) (by decide)

end Converter

namespace Converter

/-! ## C5: the release-date filtering policy of the Syllabus Parser -/

theorem buildChaptersData_names (content_folder : String) :
    ∀ (syl : List SyllEntry) (i : Nat),
      (buildChaptersData true content_folder syl i).map (fun ch => ch.name) =
        syl.map (fun sec => sec.name) := by
  intro syl
  induction syl with
  | nil => intro i; rfl
  | cons sec rest ih =>
    intro i
    have hcond : ¬ (true = false ∧ sec.date = none) := fun h => by
      exact absurd h.1 (by decide)
    simp only [buildChaptersData, hcond, if_false, List.map_cons, ih (i + 1)]

theorem buildChaptersData_filter (content_folder : String) :
    ∀ (syl : List SyllEntry) (i : Nat),
      buildChaptersData false content_folder syl i =
        (buildChaptersData true content_folder syl i).filter
          (fun ch => ch.date.isSome) := by
  intro syl
  induction syl with
  | nil => intro i; rfl
  | cons sec rest ih =>
    intro i
    have hcond : ¬ (true = false ∧ sec.date = none) := fun h => by
      exact absurd h.1 (by decide)
    by_cases hd : sec.date = none
    · simp only [buildChaptersData, hcond, if_false, hd, and_self, if_true,
      true_and, List.filter_cons, hd, Option.isSome_none, ih (i + 1)]
      simp [hd]
    · simp only [buildChaptersData, hcond, if_false, true_and, hd,
        List.filter_cons, ih (i + 1)]
      have : (⟨sec.name, sec.date, "sec_" ++ pad2 i,
          buildSeqsData content_folder i sec.date sec.subs 0⟩ : Chapter).date.isSome
          = true := by
        simp [Option.isSome_iff_ne_none, hd]
      simp [this]

/-- C5: in default mode (`parse_all` false) the Syllabus Parser drops
exactly the sections whose name has no release-date entry (so none of
their subsections is compiled), while the `parse_all` override keeps every
section; in particular a syllabus listing `Introduction` (no date) and
`Week 1` (dated `3 Sep 2018`) yields only the `Week 1` chapter by default
and both chapters in full-content mode. -/
theorem parse_syllabus_release_date_filtering :
    (∀ (content_folder : String) (syl : List SyllEntry) (i : Nat),
      (buildChaptersData true content_folder syl i).map (fun ch => ch.name) =
        syl.map (fun sec => sec.name)) ∧
    (∀ (content_folder : String) (syl : List SyllEntry) (i : Nat),
      buildChaptersData false content_folder syl i =
        (buildChaptersData true content_folder syl i).filter
          (fun ch => ch.date.isSome)) ∧
    (parse_syllabus [("Week 1", "3 Sep 2018")]
        [⟨"markdown",
          "# Syllabus\n\n* **Introduction**\n  * [About](intro.ipynb)\n* **Week 1**\n  * [Top](w1/t.ipynb)",
          none⟩] "" false).map
      (fun d => d.chapters.map (fun ch => ch.name)) = .ok ["Week 1"] ∧
    (parse_syllabus [("Week 1", "3 Sep 2018")]
        [⟨"markdown",
          "# Syllabus\n\n* **Introduction**\n  * [About](intro.ipynb)\n* **Week 1**\n  * [Top](w1/t.ipynb)",
          none⟩] "" true).map
      (fun d => d.chapters.map (fun ch => ch.name)) =
      .ok ["Introduction", "Week 1"] :=
  ⟨buildChaptersData_names, buildChaptersData_filter, rfl, rfl⟩

end Converter

namespace Converter

/-! ## C10: a subsection line before any section line is an IndexError -/

theorem parseSyllabusLines_skip (release_dates : List (String × String)) :
    ∀ pre, (∀ l ∈ pre, matchSection l = none ∧ matchSubsection l = none) →
      ∀ acc rest, parseSyllabusLines release_dates (pre ++ rest) acc =
        parseSyllabusLines release_dates rest acc := by
  intro pre
  induction pre with
  | nil => intro _ acc rest; rfl
  | cons l pre ih =>
    intro h acc rest
    have hl := h l (List.mem_cons_self l pre)
    simp only [List.cons_append, parseSyllabusLines, hl.1, hl.2]
    exact ih (fun l₁ hm => h l₁ (List.mem_cons_of_mem l hm)) acc rest

/-- C10: whenever the syllabus content block contains a subsection line
(`  * [Title](path)`) that occurs before any section line (`* **Name**`)
has been seen, `parse_syllabus` fails with the uncaught `IndexError`
raised by `syllabus[-1]` on an empty list — the line is neither ignored
nor turned into a result. -/
theorem parse_syllabus_orphan_subsection_error
    (release_dates : List (String × String)) (syllabus_cells : List Cell)
    (content_folder : String) (parse_all : Bool)
    (u : MUnit) (us : List MUnit) (cell : Cell)
    (pre rest : List String) (line : String) (sub : String × String)
    (h1 : split_into_units syllabus_cells = u :: us)
    (h2 : u.cells.get? 1 = some cell)
    (h3 : pySplitLines cell.source = pre ++ line :: rest)
    (h4 : ∀ l ∈ pre, matchSection l = none ∧ matchSubsection l = none)
    (h5 : matchSection line = none)
    (h6 : matchSubsection line = some sub) :
    parse_syllabus release_dates syllabus_cells content_folder parse_all =
      .error "list index out of range" := by
  obtain ⟨title, filename⟩ := sub
  simp only [parse_syllabus, h1, h2, h3]
  rw [parseSyllabusLines_skip release_dates pre h4]
  simp only [parseSyllabusLines, h5, h6, List.getLast?_nil]

/-- Witness for C10: a syllabus whose content block opens with a
subsection line aborts with the index error. -/
theorem parse_syllabus_orphan_subsection_error_witness :
    parse_syllabus [] [⟨"markdown", "# S\n  * [T](f)", none⟩] "" false =
      .error "list index out of range" :=
  parse_syllabus_orphan_subsection_error [] [⟨"markdown", "# S\n  * [T](f)", none⟩]
    "" false
    ⟨"S", [⟨"markdown", "# S", none⟩, ⟨"markdown", "\n  * [T](f)", none⟩]⟩ []
    ⟨"markdown", "\n  * [T](f)", none⟩
    [""] [] "  * [T](f)" ("T", "f")
    (by decide) (by decide) (by decide) (by decide) (by decide) (by decide)

end Converter

namespace Converter

/-! ## C3: graded and format attributes of every sequential -/

theorem ebind_ok {α β : Type} {e : Except String α} {f : α → Except String β}
    {b : β} (h : (e >>= fun a => f a) = .ok b) :
    ∃ a, e = .ok a ∧ f a = .ok b := by
  cases e with
  | error err => simp [Bind.bind, Except.bind] at h
  | ok a => exact ⟨a, rfl, by simpa [Bind.bind, Except.bind] using h⟩

theorem alookup_append_of_some {k v : String} {l₁ l₂ : List (String × String)}
    (h : alookup k l₁ = some v) : alookup k (l₁ ++ l₂) = some v := by
  induction l₁ with
  | nil => simp [alookup] at h
  | cons p rest ih =>
    obtain ⟨k₁, w⟩ := p
    by_cases hk : k₁ = k
    · simp only [alookup, if_pos hk] at h
      simp only [List.cons_append, alookup, if_pos hk, h]
    · simp only [alookup, if_neg hk] at h
      simp only [List.cons_append, alookup, if_neg hk]
      exact ih h

theorem sequentialAttrs_graded (chapter_url : String) (sq : Sequential) :
    alookup "graded" (sequentialAttrs chapter_url sq) =
      some (if chapter_url ≠ "sec_00" then "true" else "false") := by
  unfold sequentialAttrs
  by_cases h₁ : sq.name = "Assignments" <;>
    by_cases h₂ : chapter_url = "sec_00" <;>
    simp [alookup, h₁, h₂]

theorem sequentialAttrs_display (chapter_url : String) (sq : Sequential) :
    alookup "display_name" (sequentialAttrs chapter_url sq) = some sq.name := by
  unfold sequentialAttrs
  by_cases h₁ : sq.name = "Assignments" <;>
    by_cases h₂ : chapter_url = "sec_00" <;>
    simp [alookup, h₁, h₂]

theorem sequentialAttrs_format (chapter_url : String) (sq : Sequential) :
    alookup "format" (sequentialAttrs chapter_url sq) =
      (if sq.name = "Assignments" then some "Research"
        else if chapter_url ≠ "sec_00" then some "Self-check" else none) := by
  unfold sequentialAttrs
  by_cases h₁ : sq.name = "Assignments" <;>
    by_cases h₂ : chapter_url = "sec_00" <;>
    simp [alookup, h₁, h₂]

theorem buildSequentials_shape (render : List Cell → String)
    (parseXml : String → XML) (notebooks : String → List Cell)
    (chapter_url : String) :
    ∀ sqs xs, buildSequentials render parseXml notebooks chapter_url sqs = .ok xs →
      ∀ x ∈ xs, ∃ sq ∈ sqs, ∃ verts,
        x = XML.elem "sequential" (sequentialAttrs chapter_url sq) verts := by
  intro sqs
  induction sqs with
  | nil =>
    intro xs h x hx
    simp only [buildSequentials] at h
    cases h
    simp at hx
  | cons sq sqs ih =>
    intro xs h x hx
    simp only [buildSequentials] at h
    obtain ⟨verts, hv, h⟩ := ebind_ok h
    obtain ⟨rest, hr, h⟩ := ebind_ok h
    cases h
    rcases List.mem_cons.mp hx with rfl | hx₁
    · exact ⟨sq, List.mem_cons_self sq sqs, verts, rfl⟩
    · obtain ⟨sq₁, hmem, verts₁, hx₂⟩ := ih rest hr x hx₁
      exact ⟨sq₁, List.mem_cons_of_mem sq hmem, verts₁, hx₂⟩

theorem buildChapters_shape (render : List Cell → String)
    (parseXml : String → XML) (notebooks : String → List Cell) :
    ∀ chs xs, buildChapters render parseXml notebooks chs = .ok xs →
      ∀ x ∈ xs, ∃ ch ∈ chs, ∃ start seqs,
        x = XML.elem "chapter"
          [("url_name", ch.url), ("display_name", ch.name), ("start", start)]
          seqs ∧
        buildSequentials render parseXml notebooks ch.url ch.sequentials =
          .ok seqs := by
  intro chs
  induction chs with
  | nil =>
    intro xs h x hx
    simp only [buildChapters] at h
    cases h
    simp at hx
  | cons ch chs ih =>
    intro xs h x hx
    simp only [buildChapters] at h
    obtain ⟨start, hs, h⟩ := ebind_ok h
    obtain ⟨seqs, hq, h⟩ := ebind_ok h
    obtain ⟨rest, hr, h⟩ := ebind_ok h
    cases h
    rcases List.mem_cons.mp hx with rfl | hx₁
    · exact ⟨ch, List.mem_cons_self ch chs, start, seqs, rfl, hq⟩
    · obtain ⟨ch₁, hmem, start₁, seqs₁, hx₂, hq₁⟩ := ih rest hr x hx₁
      exact ⟨ch₁, List.mem_cons_of_mem ch hmem, start₁, seqs₁, hx₂, hq₁⟩

/-- C3: in the tree built by `converter`, every sequential of the chapter
with identifier `sec_00` has `graded="false"` and every sequential of any
other chapter has `graded="true"`; a sequential's `format` attribute is
`"Research"` exactly when its display name is `"Assignments"`, is
`"Self-check"` for every other sequential outside the `sec_00` chapter,
and is absent otherwise. -/
theorem converter_sequential_graded_format
    (render : List Cell → String) (parseXml : String → XML)
    (release_dates : List (String × String)) (notebooks : String → List Cell)
    (syllabus_cells : List Cell) (content_folder : String) (chaps : List XML)
    (hok : converter_chapters render parseXml release_dates notebooks
      syllabus_cells content_folder = .ok chaps) :
    ∀ chX ∈ chaps, ∀ sqX ∈ chX.childrenOf,
      alookup "graded" sqX.attrsOf =
        some (if alookup "url_name" chX.attrsOf = some "sec_00"
          then "false" else "true") ∧
      alookup "format" sqX.attrsOf =
        (if alookup "display_name" sqX.attrsOf = some "Assignments"
          then some "Research"
          else if alookup "url_name" chX.attrsOf = some "sec_00"
            then none else some "Self-check") := by
  intro chX hch sqX hsq
  simp only [converter_chapters] at hok
  obtain ⟨data, hdata, hok⟩ := ebind_ok hok
  obtain ⟨ch, hchm, start, seqs, rfl, hseqs⟩ :=
    buildChapters_shape render parseXml notebooks data.chapters chaps hok chX hch
  simp only [XML.childrenOf] at hsq
  obtain ⟨sq, hsqm, verts, rfl⟩ :=
    buildSequentials_shape render parseXml notebooks ch.url ch.sequentials
      seqs hseqs sqX hsq
  simp only [XML.attrsOf]
  have hurl : alookup "url_name"
      [("url_name", ch.url), ("display_name", ch.name), ("start", start)] =
      some ch.url := by
    simp [alookup]
  simp only [hurl, sequentialAttrs_graded, sequentialAttrs_format,
    sequentialAttrs_display]
  constructor
  · by_cases h : ch.url = "sec_00"
    · simp [h]
    · simp [h, Option.some.injEq]
  · by_cases h₁ : sq.name = "Assignments"
    · simp [h₁]
    · by_cases h : ch.url = "sec_00"
      · simp [h, h₁]
      · simp [h, h₁, Option.some.injEq]

end Converter

namespace Converter

/-- Witness for C3 at a concrete two-chapter compilation: the
`Assignments` sequential of chapter `sec_01` gets `graded="true"` and
`format="Research"`. -/
theorem converter_sequential_graded_format_witness :
    alookup "graded"
        (XML.elem "sequential"
          [("url_name", "subsec_01_00"), ("display_name", "Assignments"),
            ("graded", "true"), ("format", "Research")] []).attrsOf =
      some (if alookup "url_name"
          (XML.elem "chapter"
            [("url_name", "sec_01"), ("display_name", "Week 1"),
              ("start", "2018-09-10T10:00:00Z")]
            [XML.elem "sequential"
              [("url_name", "subsec_01_00"), ("display_name", "Assignments"),
                ("graded", "true"), ("format", "Research")] []]).attrsOf =
          some "sec_00" then "false" else "true") ∧
    alookup "format"
        (XML.elem "sequential"
          [("url_name", "subsec_01_00"), ("display_name", "Assignments"),
            ("graded", "true"), ("format", "Research")] []).attrsOf =
      (if alookup "display_name"
          (XML.elem "sequential"
            [("url_name", "subsec_01_00"), ("display_name", "Assignments"),
              ("graded", "true"), ("format", "Research")] []).attrsOf =
          some "Assignments" then some "Research"
        else if alookup "url_name"
          (XML.elem "chapter"
            [("url_name", "sec_01"), ("display_name", "Week 1"),
              ("start", "2018-09-10T10:00:00Z")]
            [XML.elem "sequential"
              [("url_name", "subsec_01_00"), ("display_name", "Assignments"),
                ("graded", "true"), ("format", "Research")] []]).attrsOf =
          some "sec_00" then none else some "Self-check") :=
  converter_sequential_graded_format (fun _ => "H")
    (fun _ => XML.elem "video" [] [])
    [("Intro", "3 Sep 2018"), ("Week 1", "10 Sep 2018")] (fun _ => [])
    [⟨"markdown",
      "# Syllabus\n\n* **Intro**\n  * [About](a.ipynb)\n* **Week 1**\n  * [Assignments](w1/a.ipynb)",
      none⟩] ""
    [XML.elem "chapter"
      [("url_name", "sec_00"), ("display_name", "Intro"),
        ("start", "2018-09-03T10:00:00Z")]
      [XML.elem "sequential"
        [("url_name", "subsec_00_00"), ("display_name", "About"),
          ("graded", "false")] []],
      XML.elem "chapter"
        [("url_name", "sec_01"), ("display_name", "Week 1"),
          ("start", "2018-09-10T10:00:00Z")]
        [XML.elem "sequential"
          [("url_name", "subsec_01_00"), ("display_name", "Assignments"),
            ("graded", "true"), ("format", "Research")] []]]
    rfl
    (XML.elem "chapter"
      [("url_name", "sec_01"), ("display_name", "Week 1"),
        ("start", "2018-09-10T10:00:00Z")]
      [XML.elem "sequential"
        [("url_name", "subsec_01_00"), ("display_name", "Assignments"),
          ("graded", "true"), ("format", "Research")] []])
    (List.Mem.tail _ (List.Mem.head _))
    (XML.elem "sequential"
      [("url_name", "subsec_01_00"), ("display_name", "Assignments"),
        ("graded", "true"), ("format", "Research")] [])
    (List.Mem.head _)

end Converter

namespace Converter

/-! ## C9: a filtered-out first section means no `sec_00` chapter and
all-graded sequentials -/

theorem buildChaptersData_url (parse_all : Bool) (content_folder : String) :
    ∀ (syl : List SyllEntry) (i₀ : Nat) (ch : Chapter),
      ch ∈ buildChaptersData parse_all content_folder syl i₀ →
      ∃ i, i₀ ≤ i ∧ ch.url = "sec_" ++ pad2 i := by
  intro syl
  induction syl with
  | nil => intro i₀ ch h; simp [buildChaptersData] at h
  | cons sec rest ih =>
    intro i₀ ch h
    by_cases hc : parse_all = false ∧ sec.date = none
    · rw [buildChaptersData, if_pos hc] at h
      obtain ⟨i, hi, hu⟩ := ih (i₀ + 1) ch h
      exact ⟨i, by omega, hu⟩
    · rw [buildChaptersData, if_neg hc] at h
      rcases List.mem_cons.mp h with rfl | h₁
      · exact ⟨i₀, Nat.le_refl i₀, rfl⟩
      · obtain ⟨i, hi, hu⟩ := ih (i₀ + 1) ch h₁
        exact ⟨i, by omega, hu⟩

theorem sec_url_eq_zero {i : Nat} (h : "sec_" ++ pad2 i = "sec_00") : i = 0 := by
  have hd : ['s', 'e', 'c', '_'] ++ (pad2 i).data =
      ['s', 'e', 'c', '_'] ++ ['0', '0'] := by
    have := congrArg String.data h
    rw [sdata_append] at this
    exact this
  have hp : (pad2 i).data = ['0', '0'] := by
    have := List.append_cancel_left hd
    exact this
  have := parseDigits_pad2 i
  rw [hp] at this
  simpa [parseDigits, digitVal] using this.symm

/-- C9: when, in default mode, the first syllabus section has no release
date (and is therefore filtered out), no chapter of the built tree carries
the identifier `sec_00`, and consequently every sequential in the whole
course has `graded="true"` — the ungraded-introduction rule keys on the
literal identifier string, which remembers the original enumeration
index, not on whichever chapter is emitted first. -/
theorem converter_dropped_intro_all_graded
    (render : List Cell → String) (parseXml : String → XML)
    (release_dates : List (String × String)) (notebooks : String → List Cell)
    (syllabus_cells : List Cell) (content_folder : String) (chaps : List XML)
    (u : MUnit) (us : List MUnit) (cell : Cell)
    (e₀ : SyllEntry) (es : List SyllEntry)
    (h1 : split_into_units syllabus_cells = u :: us)
    (h2 : u.cells.get? 1 = some cell)
    (h3 : parseSyllabusLines release_dates (pySplitLines cell.source) [] =
      .ok (e₀ :: es))
    (h4 : e₀.date = none)
    (h5 : converter_chapters render parseXml release_dates notebooks
      syllabus_cells content_folder = .ok chaps) :
    (∀ chX ∈ chaps, ¬ alookup "url_name" chX.attrsOf = some "sec_00") ∧
    (∀ chX ∈ chaps, ∀ sqX ∈ chX.childrenOf,
      alookup "graded" sqX.attrsOf = some "true") := by
  simp only [converter_chapters] at h5
  obtain ⟨data, hdata, hbc⟩ := ebind_ok h5
  have hparse : parse_syllabus release_dates syllabus_cells content_folder =
      .ok ⟨buildChaptersData false content_folder (e₀ :: es) 0⟩ := by
    simp only [parse_syllabus, h1, h2, h3]
  have hde : data =
      ⟨buildChaptersData false content_folder (e₀ :: es) 0⟩ :=
    Except.ok.inj (hdata.symm.trans hparse)
  have hchap : data.chapters = buildChaptersData false content_folder es 1 := by
    rw [hde]
    show buildChaptersData false content_folder (e₀ :: es) 0 = _
    rw [buildChaptersData, if_pos ⟨rfl, h4⟩]
  -- no chapter keeps the identifier sec_00
  have hnotzero : ∀ ch : Chapter, ch ∈ data.chapters → ¬ ch.url = "sec_00" := by
    intro ch hm hurl
    rw [hchap] at hm
    obtain ⟨i, hi, hu⟩ := buildChaptersData_url false content_folder es 1 ch hm
    rw [hu] at hurl
    have := sec_url_eq_zero hurl
    omega
  constructor
  · intro chX hch
    obtain ⟨ch, hchm, start, seqs, rfl, _⟩ :=
      buildChapters_shape render parseXml notebooks data.chapters chaps hbc
        chX hch
    simp only [XML.attrsOf]
    simp [alookup, Option.some.injEq]
    exact hnotzero ch hchm
  · intro chX hch sqX hsq
    obtain ⟨ch, hchm, start, seqs, rfl, hseqs⟩ :=
      buildChapters_shape render parseXml notebooks data.chapters chaps hbc
        chX hch
    simp only [XML.childrenOf] at hsq
    obtain ⟨sq, hsqm, verts, rfl⟩ :=
      buildSequentials_shape render parseXml notebooks ch.url ch.sequentials
        seqs hseqs sqX hsq
    simp only [XML.attrsOf, sequentialAttrs_graded]
    simp [hnotzero ch hchm]

/-- Witness for C9: a syllabus whose first section `Introduction` has no
release date compiles to a single chapter `sec_01` whose sequential is
graded. -/
theorem converter_dropped_intro_all_graded_witness :
    (∀ chX ∈ [XML.elem "chapter"
        [("url_name", "sec_01"), ("display_name", "Week 1"),
          ("start", "2018-09-03T10:00:00Z")]
        [XML.elem "sequential"
          [("url_name", "subsec_01_00"), ("display_name", "Top"),
            ("graded", "true"), ("format", "Self-check")] []]],
      ¬ alookup "url_name" chX.attrsOf = some "sec_00") ∧
    (∀ chX ∈ [XML.elem "chapter"
        [("url_name", "sec_01"), ("display_name", "Week 1"),
          ("start", "2018-09-03T10:00:00Z")]
        [XML.elem "sequential"
          [("url_name", "subsec_01_00"), ("display_name", "Top"),
            ("graded", "true"), ("format", "Self-check")] []]],
      ∀ sqX ∈ chX.childrenOf,
        alookup "graded" sqX.attrsOf = some "true") :=
  converter_dropped_intro_all_graded (fun _ => "H")
    (fun _ => XML.elem "video" [] []) [("Week 1", "3 Sep 2018")] (fun _ => [])
    [⟨"markdown",
      "# Syllabus\n\n* **Introduction**\n  * [About](intro.ipynb)\n* **Week 1**\n  * [Top](w1/t.ipynb)",
      none⟩] ""
    [XML.elem "chapter"
      [("url_name", "sec_01"), ("display_name", "Week 1"),
        ("start", "2018-09-03T10:00:00Z")]
      [XML.elem "sequential"
        [("url_name", "subsec_01_00"), ("display_name", "Top"),
          ("graded", "true"), ("format", "Self-check")] []]]
    ⟨"Syllabus",
      [⟨"markdown", "# Syllabus", none⟩,
        ⟨"markdown",
          "\n\n* **Introduction**\n  * [About](intro.ipynb)\n* **Week 1**\n  * [Top](w1/t.ipynb)",
          none⟩]⟩
    []
    ⟨"markdown",
      "\n\n* **Introduction**\n  * [About](intro.ipynb)\n* **Week 1**\n  * [Top](w1/t.ipynb)",
      none⟩
    ⟨"Introduction", none, [("About", "intro.ipynb")]⟩
    [⟨"Week 1", some "3 Sep 2018", [("Top", "w1/t.ipynb")]⟩]
    rfl rfl rfl rfl rfl

end Converter

namespace Converter

/-! ## C7: identifier generation, uniqueness and determinism

Every identifier the builder generates has one of four shapes, determined
by its positional indices; `encodeA` produces them and `decode` recovers
the indices, which yields injectivity.  Splitting on `_` is well defined
because the decimal blocks contain no underscore. -/

/-- The four positional identifier shapes of the course tree. -/
def encodeA : List Nat → String
  | [i] => "sec_" ++ pad2 i
  | [i, j] => "subsec_" ++ pad2 i ++ "_" ++ pad2 j
  | [i, j, k] => "subsec_" ++ pad2 i ++ "_" ++ pad2 j ++ "_" ++ pad2 k
  | [i, j, k, m] =>
    "subsec_" ++ pad2 i ++ "_" ++ pad2 j ++ "_" ++ pad2 k ++ "_out_" ++ pad2 m
  | _ => ""

/-- Recover the positional indices from an identifier. -/
def decode (s : String) : Option (List Nat) :=
  match splitChar '_' s.data with
  | [t, a] =>
    if t = "sec".data then some [parseDigits a] else none
  | [t, a, b] =>
    if t = "subsec".data then some [parseDigits a, parseDigits b] else none
  | [t, a, b, c] =>
    if t = "subsec".data
    then some [parseDigits a, parseDigits b, parseDigits c] else none
  | [t, a, b, c, o, d] =>
    if t = "subsec".data ∧ o = "out".data
    then some [parseDigits a, parseDigits b, parseDigits c, parseDigits d]
    else none
  | _ => none

theorem splitChar_ne_nil (sep : Char) : ∀ l, splitChar sep l ≠ [] := by
  intro l
  cases l with
  | nil => simp [splitChar]
  | cons c rest =>
    by_cases hc : c = sep
    · simp [splitChar, hc]
    · simp only [splitChar, hc, if_false]
      cases h : splitChar sep rest with
      | nil => simp
      | cons s ss => simp

theorem splitChar_no_sep (sep : Char) :
    ∀ l, sep ∉ l → splitChar sep l = [l] := by
  intro l
  induction l with
  | nil => intro _; rfl
  | cons c rest ih =>
    intro h
    have hc : ¬ c = sep := fun hc => h (hc ▸ List.mem_cons_self c rest)
    simp only [splitChar, hc, if_false,
      ih (fun hm => h (List.mem_cons_of_mem c hm))]

theorem splitChar_append (sep : Char) :
    ∀ a b, sep ∉ a → splitChar sep (a ++ sep :: b) = a :: splitChar sep b := by
  intro a
  induction a with
  | nil => intro b _; simp [splitChar]
  | cons c a iha =>
    intro b h
    have hc : ¬ c = sep := fun hc => h (hc ▸ List.mem_cons_self c a)
    rw [List.cons_append]
    simp only [splitChar, hc, if_false,
      iha b (fun hm => h (List.mem_cons_of_mem c hm))]

theorem underscore_not_mem_sec : '_' ∉ (['s', 'e', 'c'] : List Char) := by
  decide

theorem underscore_not_mem_subsec :
    '_' ∉ (['s', 'u', 'b', 's', 'e', 'c'] : List Char) := by
  decide

theorem underscore_not_mem_out : '_' ∉ (['o', 'u', 't'] : List Char) := by
  decide

theorem decode_encode_one (i : Nat) : decode (encodeA [i]) = some [i] := by
  have hd : (encodeA [i]).data = ['s', 'e', 'c'] ++ '_' :: (pad2 i).data := rfl
  unfold decode
  rw [hd, splitChar_append _ _ _ underscore_not_mem_sec,
    splitChar_no_sep _ _ (underscore_not_mem_pad2 i)]
  simp [parseDigits_pad2]

theorem decode_encode_two (i j : Nat) :
    decode (encodeA [i, j]) = some [i, j] := by
  have hd : (encodeA [i, j]).data =
      ['s', 'u', 'b', 's', 'e', 'c'] ++ '_' ::
        ((pad2 i).data ++ '_' :: (pad2 j).data) := by
    show ("subsec_" ++ pad2 i ++ "_" ++ pad2 j).data = _
    simp [sdata_append, List.append_assoc]
  unfold decode
  rw [hd, splitChar_append _ _ _ underscore_not_mem_subsec,
    splitChar_append _ _ _ (underscore_not_mem_pad2 i),
    splitChar_no_sep _ _ (underscore_not_mem_pad2 j)]
  simp [parseDigits_pad2]

theorem decode_encode_three (i j k : Nat) :
    decode (encodeA [i, j, k]) = some [i, j, k] := by
  have hd : (encodeA [i, j, k]).data =
      ['s', 'u', 'b', 's', 'e', 'c'] ++ '_' ::
        ((pad2 i).data ++ '_' :: ((pad2 j).data ++ '_' :: (pad2 k).data)) := by
    show ("subsec_" ++ pad2 i ++ "_" ++ pad2 j ++ "_" ++ pad2 k).data = _
    simp [sdata_append, List.append_assoc]
  unfold decode
  rw [hd, splitChar_append _ _ _ underscore_not_mem_subsec,
    splitChar_append _ _ _ (underscore_not_mem_pad2 i),
    splitChar_append _ _ _ (underscore_not_mem_pad2 j),
    splitChar_no_sep _ _ (underscore_not_mem_pad2 k)]
  simp [parseDigits_pad2]

theorem decode_encode_four (i j k m : Nat) :
    decode (encodeA [i, j, k, m]) = some [i, j, k, m] := by
  have hd : (encodeA [i, j, k, m]).data =
      ['s', 'u', 'b', 's', 'e', 'c'] ++ '_' ::
        ((pad2 i).data ++ '_' :: ((pad2 j).data ++ '_' ::
          ((pad2 k).data ++ '_' :: (['o', 'u', 't'] ++ '_' :: (pad2 m).data)))) := by
    show ("subsec_" ++ pad2 i ++ "_" ++ pad2 j ++ "_" ++ pad2 k ++ "_out_" ++
      pad2 m).data = _
    simp [sdata_append, List.append_assoc]
  unfold decode
  rw [hd, splitChar_append _ _ _ underscore_not_mem_subsec,
    splitChar_append _ _ _ (underscore_not_mem_pad2 i),
    splitChar_append _ _ _ (underscore_not_mem_pad2 j),
    splitChar_append _ _ _ (underscore_not_mem_pad2 k),
    splitChar_append _ _ _ underscore_not_mem_out,
    splitChar_no_sep _ _ (underscore_not_mem_pad2 m)]
  simp [parseDigits_pad2]

theorem decode_encode {a : List Nat} (h₁ : 1 ≤ a.length) (h₂ : a.length ≤ 4) :
    decode (encodeA a) = some a := by
  match a with
  | [i] => exact decode_encode_one i
  | [i, j] => exact decode_encode_two i j
  | [i, j, k] => exact decode_encode_three i j k
  | [i, j, k, m] => exact decode_encode_four i j k m
  | [] => simp at h₁
  | _ :: _ :: _ :: _ :: _ :: _ => simp [List.length_cons] at h₂

theorem encodeA_inj {a b : List Nat}
    (ha₁ : 1 ≤ a.length) (ha₂ : a.length ≤ 4)
    (hb₁ : 1 ≤ b.length) (hb₂ : b.length ≤ 4)
    (h : encodeA a = encodeA b) : a = b := by
  have := congrArg decode h
  rw [decode_encode ha₁ ha₂, decode_encode hb₁ hb₂] at this
  exact Option.some.inj this

end Converter

namespace Converter

/-- Addresses of the artifacts of one vertical (`c` many, starting at
output index `m`). -/
def outA (i j k : Nat) : Nat → Nat → List (List Nat)
  | _, 0 => []
  | m, c + 1 => [i, j, k, m] :: outA i j k (m + 1) c

/-- Addresses of the verticals of one sequential with their artifacts;
`cs` holds each vertical's artifact count. -/
def vertA (i j : Nat) : Nat → List Nat → List (List Nat)
  | _, [] => []
  | k, c :: cs => [i, j, k] :: (outA i j k 0 c ++ vertA i j (k + 1) cs)

/-- Addresses of the sequentials of one chapter with their subtrees. -/
def seqA (i : Nat) : Nat → List (List Nat) → List (List Nat)
  | _, [] => []
  | j, cs :: css => [i, j] :: (vertA i j 0 cs ++ seqA i (j + 1) css)

/-- Addresses of a chapter forest: per chapter its enumeration index and
the artifact-count table of its sequentials. -/
def chapA : List (Nat × List (List Nat)) → List (List Nat)
  | [] => []
  | (i, css) :: rest => [i] :: (seqA i 0 css ++ chapA rest)

theorem mem_outA {i j k : Nat} :
    ∀ {c m a}, a ∈ outA i j k m c → ∃ m₁, m ≤ m₁ ∧ a = [i, j, k, m₁] := by
  intro c
  induction c with
  | zero => intro m a h; simp [outA] at h
  | succ c ih =>
    intro m a h
    rcases List.mem_cons.mp h with rfl | h₁
    · exact ⟨m, Nat.le_refl m, rfl⟩
    · obtain ⟨m₁, hm, ha⟩ := ih h₁
      exact ⟨m₁, by omega, ha⟩

theorem mem_vertA {i j : Nat} :
    ∀ {cs k a}, a ∈ vertA i j k cs →
      ∃ k₁, k ≤ k₁ ∧ (a = [i, j, k₁] ∨ ∃ m, a = [i, j, k₁, m]) := by
  intro cs
  induction cs with
  | nil => intro k a h; simp [vertA] at h
  | cons c cs ih =>
    intro k a h
    rcases List.mem_cons.mp h with rfl | h₁
    · exact ⟨k, Nat.le_refl k, Or.inl rfl⟩
    · rcases List.mem_append.mp h₁ with h₂ | h₂
      · obtain ⟨m₁, _, ha⟩ := mem_outA h₂
        exact ⟨k, Nat.le_refl k, Or.inr ⟨m₁, ha⟩⟩
      · obtain ⟨k₁, hk, ha⟩ := ih h₂
        exact ⟨k₁, by omega, ha⟩

theorem mem_seqA {i : Nat} :
    ∀ {css j a}, a ∈ seqA i j css →
      ∃ j₁, j ≤ j₁ ∧ (a = [i, j₁] ∨ ∃ t, a = i :: j₁ :: t ∧ 1 ≤ t.length ∧
        t.length ≤ 2) := by
  intro css
  induction css with
  | nil => intro j a h; simp [seqA] at h
  | cons cs css ih =>
    intro j a h
    rcases List.mem_cons.mp h with rfl | h₁
    · exact ⟨j, Nat.le_refl j, Or.inl rfl⟩
    · rcases List.mem_append.mp h₁ with h₂ | h₂
      · obtain ⟨k₁, _, ha | ⟨m, ha⟩⟩ := mem_vertA h₂
        · exact ⟨j, Nat.le_refl j, Or.inr ⟨[k₁], by simp [ha]⟩⟩
        · exact ⟨j, Nat.le_refl j, Or.inr ⟨[k₁, m], by simp [ha]⟩⟩
      · obtain ⟨j₁, hj, ha⟩ := ih h₂
        exact ⟨j₁, by omega, ha⟩

theorem mem_chapA :
    ∀ {spec a}, a ∈ chapA spec →
      ∃ p ∈ spec, (a = [p.1] ∨ ∃ t, a = p.1 :: t ∧ 1 ≤ t.length ∧
        t.length ≤ 3) := by
  intro spec
  induction spec with
  | nil => intro a h; simp [chapA] at h
  | cons p rest ih =>
    intro a h
    obtain ⟨i, css⟩ := p
    rcases List.mem_cons.mp h with rfl | h₁
    · exact ⟨(i, css), List.mem_cons_self _ _, Or.inl rfl⟩
    · rcases List.mem_append.mp h₁ with h₂ | h₂
      · obtain ⟨j₁, _, ha | ⟨t, ha, ht₁, ht₂⟩⟩ := mem_seqA h₂
        · exact ⟨(i, css), List.mem_cons_self _ _, Or.inr ⟨[j₁], by simp [ha]⟩⟩
        · refine ⟨(i, css), List.mem_cons_self _ _,
            Or.inr ⟨j₁ :: t, ha, by simp, ?_⟩⟩
          simp only [List.length_cons]
          omega
      · obtain ⟨p₁, hp, ha⟩ := ih h₂
        exact ⟨p₁, List.mem_cons_of_mem _ hp, ha⟩

theorem mem_chapA_length {spec : List (Nat × List (List Nat))} {a : List Nat}
    (h : a ∈ chapA spec) : 1 ≤ a.length ∧ a.length ≤ 4 := by
  obtain ⟨p, _, ha | ⟨t, ha, ht₁, ht₂⟩⟩ := mem_chapA h
  · simp [ha]
  · rw [ha]
    simp [List.length_cons]
    omega

theorem nodup_outA (i j k : Nat) : ∀ c m, (outA i j k m c).Nodup := by
  intro c
  induction c with
  | zero => intro m; simp [outA]
  | succ c ih =>
    intro m
    refine List.Nodup.cons ?_ (ih (m + 1))
    intro hmem
    obtain ⟨m₁, hm, ha⟩ := mem_outA hmem
    have : m = m₁ := by
      have := List.cons.inj ha
      have := List.cons.inj this.2
      have := List.cons.inj this.2
      have := List.cons.inj this.2
      exact this.1
    omega

theorem nodup_vertA (i j : Nat) : ∀ cs k, (vertA i j k cs).Nodup := by
  intro cs
  induction cs with
  | nil => intro k; simp [vertA]
  | cons c cs ih =>
    intro k
    refine List.Nodup.cons ?_ (List.Nodup.append (nodup_outA i j k c 0)
      (ih (k + 1)) ?_)
    · intro hmem
      rcases List.mem_append.mp hmem with h₂ | h₂
      · obtain ⟨m₁, _, ha⟩ := mem_outA h₂
        simp at ha
      · obtain ⟨k₁, hk, ha | ⟨m, ha⟩⟩ := mem_vertA h₂
        · have : k = k₁ := by
            have := List.cons.inj ha
            have := List.cons.inj this.2
            have := List.cons.inj this.2
            exact this.1
          omega
        · simp at ha
    · intro a h₂ h₃
      obtain ⟨m₁, _, ha⟩ := mem_outA h₂
      obtain ⟨k₁, hk, hb | ⟨m₂, hb⟩⟩ := mem_vertA h₃
      · rw [ha] at hb
        simp at hb
      · rw [ha] at hb
        have : k = k₁ := by
          have := List.cons.inj hb
          have := List.cons.inj this.2
          have := List.cons.inj this.2
          exact this.1
        omega

end Converter

namespace Converter

theorem nodup_seqA (i : Nat) : ∀ css j, (seqA i j css).Nodup := by
  intro css
  induction css with
  | nil => intro j; simp [seqA]
  | cons cs css ih =>
    intro j
    refine List.Nodup.cons ?_ (List.Nodup.append (nodup_vertA i j cs 0)
      (ih (j + 1)) ?_)
    · intro hmem
      rcases List.mem_append.mp hmem with h₂ | h₂
      · obtain ⟨k₁, _, ha | ⟨m, ha⟩⟩ := mem_vertA h₂ <;> simp at ha
      · obtain ⟨j₁, hj, ha | ⟨t, ha, ht₁, ht₂⟩⟩ := mem_seqA h₂
        · have hj₁ : j = j₁ := by
            have h₄ := List.cons.inj ha
            exact (List.cons.inj h₄.2).1
          omega
        · have hj₁ : j = j₁ := by
            have h₄ := List.cons.inj ha
            exact (List.cons.inj h₄.2).1
          omega
    · intro a h₂ h₃
      obtain ⟨k₁, _, ha | ⟨m, ha⟩⟩ := mem_vertA h₂ <;>
        obtain ⟨j₁, hj, hb | ⟨t, hb, ht₁, ht₂⟩⟩ := mem_seqA h₃
      · rw [ha] at hb
        simp at hb
      · rw [ha] at hb
        have hj₁ : j = j₁ := by
          have h₄ := List.cons.inj hb
          exact (List.cons.inj h₄.2).1
        omega
      · rw [ha] at hb
        simp at hb
      · rw [ha] at hb
        have hj₁ : j = j₁ := by
          have h₄ := List.cons.inj hb
          exact (List.cons.inj h₄.2).1
        omega

theorem nodup_chapA :
    ∀ spec : List (Nat × List (List Nat)),
      List.Pairwise (fun p q => p.1 < q.1) spec → (chapA spec).Nodup := by
  intro spec
  induction spec with
  | nil => intro _; simp [chapA]
  | cons p rest ih =>
    intro hpw
    obtain ⟨i, css⟩ := p
    have hpw₁ := (List.pairwise_cons.mp hpw).1
    have hpw₂ := (List.pairwise_cons.mp hpw).2
    have hgt : ∀ a ∈ chapA rest, ∃ i₁, i < i₁ ∧ ∃ t, a = i₁ :: t := by
      intro a ha
      obtain ⟨q, hq, hb | ⟨t, hb, _, _⟩⟩ := mem_chapA ha
      · exact ⟨q.1, hpw₁ q hq, [], hb⟩
      · exact ⟨q.1, hpw₁ q hq, t, hb⟩
    refine List.Nodup.cons ?_ (List.Nodup.append (nodup_seqA i css 0)
      (ih hpw₂) ?_)
    · intro hmem
      rcases List.mem_append.mp hmem with h₂ | h₂
      · obtain ⟨j₁, _, ha | ⟨t, ha, ht₁, ht₂⟩⟩ := mem_seqA h₂ <;> simp at ha
      · obtain ⟨i₁, hi, t, ha⟩ := hgt _ h₂
        have : i = i₁ := (List.cons.inj ha).1
        omega
    · intro a h₂ h₃
      obtain ⟨i₁, hi, t₁, hb⟩ := hgt a h₃
      obtain ⟨j₁, _, ha | ⟨t, ha, ht₁, ht₂⟩⟩ := mem_seqA h₂
      · rw [ha] at hb
        have : i = i₁ := (List.cons.inj hb).1
        omega
      · rw [ha] at hb
        have : i = i₁ := (List.cons.inj hb).1
        omega

end Converter

namespace Converter

theorem flatMap_collectIdsN_zero : ∀ l : List XML, l.flatMap (collectIdsN 0) = [] := by
  intro l
  induction l with
  | nil => rfl
  | cons x xs ih => simp [collectIdsN, ih]

theorem flatMap_const_nil (l : List XML) :
    (l.flatMap fun _ => ([] : List String)) = [] := by
  induction l with
  | nil => rfl
  | cons x xs ih => simp [ih]

theorem sequentialAttrs_url (chapter_url : String) (sq : Sequential) :
    alookup "url_name" (sequentialAttrs chapter_url sq) = some sq.url := by
  unfold sequentialAttrs
  by_cases h₁ : sq.name = "Assignments" <;>
    by_cases h₂ : chapter_url = "sec_00" <;>
    simp [alookup, h₁, h₂]

theorem convertUnitGo_xml_from_parse (render : List Cell → String)
    (parseXml : String → XML) :
    ∀ cells uo ncs outs,
      convertUnitGo render parseXml uo ncs cells = .ok outs →
      (∀ x, Artifact.xml x ∈ uo → ∃ s, x = parseXml s) →
      ∀ x, Artifact.xml x ∈ outs → ∃ s, x = parseXml s := by
  intro cells
  induction cells with
  | nil =>
    intro uo ncs outs h hyp x hx
    simp only [convertUnitGo] at h
    cases h
    rcases List.mem_append.mp hx with hm | hm
    · exact hyp x hm
    · unfold flushNormalCells at hm
      cases ncs with
      | nil => simp at hm
      | cons c cs => simp at hm
  | cons c rest ih =>
    intro uo ncs outs h hyp x hx
    by_cases hm : c.cell_type = "markdown"
    · simp only [convertUnitGo, if_pos hm] at h
      exact ih _ _ _ h hyp x hx
    · rcases h₁ : c.outputs with _ | os
      · simp only [convertUnitGo, if_neg hm, h₁] at h
        exact ih _ _ _ h hyp x hx
      · rcases h₂ : os.filterMap getPayload with _ | ⟨y, _ | ⟨z, tl⟩⟩
        · simp only [convertUnitGo, if_neg hm, h₁, h₂] at h
          exact ih _ _ _ h hyp x hx
        · simp only [convertUnitGo, if_neg hm, h₁, h₂] at h
          refine ih _ _ _ h ?_ x hx
          intro x₁ hx₁
          rcases List.mem_append.mp hx₁ with hm₁ | hm₁
          · rcases List.mem_append.mp hm₁ with hm₂ | hm₂
            · exact hyp x₁ hm₂
            · unfold flushNormalCells at hm₂
              cases ncs with
              | nil => simp at hm₂
              | cons c₁ cs₁ => simp at hm₂
          · have : x₁ = parseXml y := by
              rcases List.mem_singleton.mp hm₁ with hm₃
              exact Artifact.xml.inj hm₃
            exact ⟨y, this⟩
        · simp only [convertUnitGo, if_neg hm, h₁, h₂] at h
          cases h

theorem convert_unit_xml_from_parse (render : List Cell → String)
    (parseXml : String → XML) (u : MUnit) (date : Option String)
    (outs : List Artifact)
    (h : convert_unit render parseXml u date = .ok outs) :
    ∀ x, Artifact.xml x ∈ outs → ∃ s, x = parseXml s :=
  convertUnitGo_xml_from_parse render parseXml u.cells [] [] outs h
    (fun x hx => by simp at hx)

theorem outsToXml_ids (parseXml : String → XML)
    (Hp : ∀ s, alookup "url_name" (parseXml s).attrsOf = none)
    (i j k : Nat) (dname : String) :
    ∀ outs m, (∀ x, Artifact.xml x ∈ outs → ∃ s, x = parseXml s) →
      (outsToXml (encodeA [i, j, k]) dname outs m).flatMap (collectIdsN 1) =
        (outA i j k m outs.length).map encodeA := by
  intro outs
  induction outs with
  | nil => intro m _; rfl
  | cons out rest ih =>
    intro m hyp
    have hurl : encodeA [i, j, k] ++ "_out_" ++ pad2 m = encodeA [i, j, k, m] :=
      rfl
    have htail := ih (m + 1) (fun x hx => hyp x (List.mem_cons_of_mem out hx))
    cases out with
    | html s =>
      simp only [outsToXml, List.flatMap_cons, collectIdsN, hurl]
      rw [htail]
      simp only [alookup, if_pos rfl, Option.toList_some,
        flatMap_collectIdsN_zero, List.length_cons, outA, List.map_cons,
        List.append_nil]
      rfl
    | xml x =>
      obtain ⟨s, rfl⟩ := hyp x (List.mem_cons_self _ _)
      simp only [outsToXml, List.flatMap_cons, hurl, Hp s]
      rw [htail]
      cases hx : parseXml s with
      | elem t attrs children =>
        have hattrs : attrs = (parseXml s).attrsOf := by rw [hx]; rfl
        have hnone : alookup "url_name" attrs = none := by
          rw [hattrs]; exact Hp s
        simp only [collectIdsN, XML.tagOf, XML.attrsOf, XML.childrenOf,
          alookup_append_of_none hnone, alookup, if_pos rfl,
          Option.toList_some, flatMap_collectIdsN_zero, List.length_cons,
          outA, List.map_cons, List.append_nil]
        simp [flatMap_const_nil]

end Converter

namespace Converter

theorem buildVerticals_ids (render : List Cell → String)
    (parseXml : String → XML)
    (Hp : ∀ s, alookup "url_name" (parseXml s).attrsOf = none)
    (date : Option String) (i j : Nat) :
    ∀ units k vs,
      buildVerticals render parseXml (encodeA [i, j]) date units k = .ok vs →
      ∃ counts, vs.flatMap (collectIdsN 2) = (vertA i j k counts).map encodeA := by
  intro units
  induction units with
  | nil =>
    intro k vs h
    simp only [buildVerticals] at h
    cases h
    exact ⟨[], rfl⟩
  | cons u us ih =>
    intro k vs h
    simp only [buildVerticals] at h
    obtain ⟨outs, hcu, h⟩ := ebind_ok h
    obtain ⟨rest, hrest, h⟩ := ebind_ok h
    cases h
    obtain ⟨counts, hcounts⟩ := ih (k + 1) rest hrest
    have hvurl : encodeA [i, j] ++ "_" ++ pad2 k = encodeA [i, j, k] := rfl
    refine ⟨outs.length :: counts, ?_⟩
    simp only [List.flatMap_cons, collectIdsN, XML.attrsOf, XML.childrenOf,
      alookup, if_pos rfl, Option.toList_some, hvurl, hcounts,
      vertA, List.map_cons, List.map_append]
    rw [outsToXml_ids parseXml Hp i j k u.name outs 0
      (convert_unit_xml_from_parse render parseXml u date outs hcu)]
    simp

theorem buildSequentials_ids (render : List Cell → String)
    (parseXml : String → XML)
    (Hp : ∀ s, alookup "url_name" (parseXml s).attrsOf = none)
    (notebooks : String → List Cell) (chapter_url content_folder : String)
    (date : Option String) (i : Nat) :
    ∀ subs j xs,
      buildSequentials render parseXml notebooks chapter_url
        (buildSeqsData content_folder i date subs j) = .ok xs →
      ∃ css, xs.flatMap (collectIdsN 3) = (seqA i j css).map encodeA := by
  intro subs
  induction subs with
  | nil =>
    intro j xs h
    simp only [buildSeqsData, buildSequentials] at h
    cases h
    exact ⟨[], rfl⟩
  | cons sub rest ih =>
    intro j xs h
    obtain ⟨title, filename⟩ := sub
    simp only [buildSeqsData, buildSequentials] at h
    obtain ⟨verts, hverts, h⟩ := ebind_ok h
    obtain ⟨xrest, hxrest, h⟩ := ebind_ok h
    cases h
    obtain ⟨css, hcss⟩ := ih (j + 1) xrest hxrest
    have hsurl : ("subsec_" ++ pad2 i ++ "_" ++ pad2 j : String) =
        encodeA [i, j] := rfl
    rw [hsurl] at hverts
    obtain ⟨counts, hcounts⟩ :=
      buildVerticals_ids render parseXml Hp date i j _ 0 verts hverts
    refine ⟨counts :: css, ?_⟩
    simp only [List.flatMap_cons, collectIdsN, XML.attrsOf, XML.childrenOf,
      sequentialAttrs_url, Option.toList_some, hcounts, hcss,
      seqA, List.map_cons, List.map_append]
    rfl

theorem buildChapters_ids (render : List Cell → String)
    (parseXml : String → XML)
    (Hp : ∀ s, alookup "url_name" (parseXml s).attrsOf = none)
    (notebooks : String → List Cell) (content_folder : String) :
    ∀ (syl : List SyllEntry) (i₀ : Nat) (xs : List XML),
      buildChapters render parseXml notebooks
        (buildChaptersData false content_folder syl i₀) = .ok xs →
      ∃ spec : List (Nat × List (List Nat)),
        (∀ p ∈ spec, i₀ ≤ p.1) ∧
        List.Pairwise (fun p q => p.1 < q.1) spec ∧
        xs.flatMap (collectIdsN 4) = (chapA spec).map encodeA := by
  intro syl
  induction syl with
  | nil =>
    intro i₀ xs h
    simp only [buildChaptersData, buildChapters] at h
    cases h
    exact ⟨[], by simp, by simp, rfl⟩
  | cons sec rest ih =>
    intro i₀ xs h
    by_cases hd : sec.date = none
    · rw [buildChaptersData, if_pos ⟨rfl, hd⟩] at h
      obtain ⟨spec, hb, hpw, hids⟩ := ih (i₀ + 1) xs h
      exact ⟨spec, fun p hp => by have := hb p hp; omega, hpw, hids⟩
    · rw [buildChaptersData, if_neg (fun hc => hd hc.2)] at h
      simp only [buildChapters] at h
      obtain ⟨start, hstart, h⟩ := ebind_ok h
      obtain ⟨seqs, hseqs, h⟩ := ebind_ok h
      obtain ⟨xrest, hxrest, h⟩ := ebind_ok h
      cases h
      obtain ⟨spec, hb, hpw, hids⟩ := ih (i₀ + 1) xrest hxrest
      obtain ⟨css, hcss⟩ :=
        buildSequentials_ids render parseXml Hp notebooks _ content_folder
          sec.date i₀ sec.subs 0 seqs hseqs
      refine ⟨(i₀, css) :: spec, ?_, ?_, ?_⟩
      · intro p hp
        rcases List.mem_cons.mp hp with rfl | hp₁
        · exact Nat.le_refl i₀
        · have := hb p hp₁
          omega
      · refine List.pairwise_cons.mpr ⟨?_, hpw⟩
        intro q hq
        have := hb q hq
        omega
      · have hcurl : ("sec_" ++ pad2 i₀ : String) = encodeA [i₀] := rfl
        simp only [List.flatMap_cons, collectIdsN, XML.attrsOf,
          XML.childrenOf, alookup, if_pos rfl, Option.toList_some, hcurl,
          hcss, hids, chapA, List.map_cons, List.map_append]
        rfl

end Converter

namespace Converter

theorem parse_syllabus_shape {release_dates : List (String × String)}
    {syllabus_cells : List Cell} {content_folder : String} {parse_all : Bool}
    {data : CourseData}
    (h : parse_syllabus release_dates syllabus_cells content_folder parse_all =
      .ok data) :
    ∃ syl, data.chapters = buildChaptersData parse_all content_folder syl 0 := by
  cases h₁ : split_into_units syllabus_cells with
  | nil =>
    simp only [parse_syllabus, h₁] at h
    exact Except.noConfusion h
  | cons u us =>
    cases h₂ : u.cells.get? 1 with
    | none =>
      simp only [parse_syllabus, h₁, h₂] at h
      exact Except.noConfusion h
    | some cell =>
      cases h₃ : parseSyllabusLines release_dates (pySplitLines cell.source) []
        with
      | error e =>
        simp only [parse_syllabus, h₁, h₂, h₃] at h
        exact Except.noConfusion h
      | ok syl =>
        simp only [parse_syllabus, h₁, h₂, h₃] at h
        have hde := (Except.ok.inj h).symm
        exact ⟨syl, by rw [hde]⟩

/-- C7 (amended): provided no structured component declares a `url_name` of
its own (components with pre-declared identifiers are appended verbatim by
the source, lines 366-370, and can collide), every identifier of the
four-level tree built by `converter` is generated from positional indices
and the identifiers are unique within the whole tree; moreover the build
is a pure function of its inputs, so byte-identical inputs give the
identical chapter forest — and hence the identical identifier set and
byte-identical serialized output. -/
theorem converter_ids_unique_amended
    (render : List Cell → String) (parseXml : String → XML)
    (release_dates : List (String × String)) (notebooks : String → List Cell)
    (syllabus_cells : List Cell) (content_folder : String) (chaps : List XML)
    (Hp : ∀ s, alookup "url_name" (parseXml s).attrsOf = none)
    (hok : converter_chapters render parseXml release_dates notebooks
      syllabus_cells content_folder = .ok chaps) :
    (collectIds chaps).Nodup ∧
    ∀ render₂ parseXml₂ rd₂ notebooks₂ scells₂ cf₂,
      render₂ = render → parseXml₂ = parseXml → rd₂ = release_dates →
      notebooks₂ = notebooks → scells₂ = syllabus_cells →
      cf₂ = content_folder →
      converter_chapters render₂ parseXml₂ rd₂ notebooks₂ scells₂ cf₂ =
        .ok chaps := by
  constructor
  · simp only [converter_chapters] at hok
    obtain ⟨data, hdata, hbc⟩ := ebind_ok hok
    obtain ⟨syl, hchap⟩ := parse_syllabus_shape hdata
    rw [hchap] at hbc
    obtain ⟨spec, _, hpw, hids⟩ :=
      buildChapters_ids render parseXml Hp notebooks content_folder syl 0
        chaps hbc
    show (chaps.flatMap (collectIdsN 4)).Nodup
    rw [hids]
    exact List.Nodup.map_on
      (fun a ha b hb hab =>
        encodeA_inj (mem_chapA_length ha).1 (mem_chapA_length ha).2
          (mem_chapA_length hb).1 (mem_chapA_length hb).2 hab)
      (nodup_chapA spec hpw)
  · intro r₂ p₂ rd₂ nb₂ sc₂ cf₂ h1 h2 h3 h4 h5 h6
    subst h1; subst h2; subst h3; subst h4; subst h5; subst h6
    exact hok

/-- Counterexample to C7 as stated: a structured component may declare its
own `url_name`, which the builder keeps verbatim; declaring `sec_00`
produces a tree whose identifier list contains `sec_00` twice, so the
identifiers of a compilation are neither all positional nor unique. -/
theorem converter_duplicate_identifier_counterexample :
    ∃ chaps,
      converter_chapters (fun _ => "H")
          (fun _ => XML.elem "video" [("url_name", "sec_00")] [])
          [("W", "3 Sep 2018")]
          (fun _ => [⟨"markdown", "# U\nsome text", none⟩,
            ⟨"code", "make_video()", some [⟨[(olxmlMime, "<video/>")]⟩]⟩])
          [⟨"markdown", "# Syllabus\n\n* **W**\n  * [T](nb.ipynb)", none⟩] "" =
        .ok chaps ∧
      ¬ (collectIds chaps).Nodup :=
  ⟨[XML.elem "chapter"
      [("url_name", "sec_00"), ("display_name", "W"),
        ("start", "2018-09-03T10:00:00Z")]
      [XML.elem "sequential"
        [("url_name", "subsec_00_00"), ("display_name", "T"),
          ("graded", "false")]
        [XML.elem "vertical"
          [("url_name", "subsec_00_00_00"), ("display_name", "U")]
          [XML.elem "html"
            [("url_name", "subsec_00_00_00_out_00"), ("display_name", "U"),
              ("filename", "subsec_00_00_00_out_00")] [],
            XML.elem "video" [("url_name", "sec_00")] []]]]],
    rfl, by decide⟩

/-- Witness for the amended C7: the same compilation with a component that
declares no identifier of its own yields pairwise-distinct positional
identifiers. -/
theorem converter_ids_unique_amended_witness :
    (collectIds
        [XML.elem "chapter"
          [("url_name", "sec_00"), ("display_name", "W"),
            ("start", "2018-09-03T10:00:00Z")]
          [XML.elem "sequential"
            [("url_name", "subsec_00_00"), ("display_name", "T"),
              ("graded", "false")]
            [XML.elem "vertical"
              [("url_name", "subsec_00_00_00"), ("display_name", "U")]
              [XML.elem "html"
                [("url_name", "subsec_00_00_00_out_00"), ("display_name", "U"),
                  ("filename", "subsec_00_00_00_out_00")] [],
                XML.elem "video"
                  [("url_name", "subsec_00_00_00_out_01")] []]]]]).Nodup ∧
    ∀ render₂ parseXml₂ rd₂ notebooks₂ scells₂ cf₂,
      render₂ = (fun _ => "H") →
      parseXml₂ = (fun _ => XML.elem "video" [] []) →
      rd₂ = [("W", "3 Sep 2018")] →
      notebooks₂ = (fun _ => [⟨"markdown", "# U\nsome text", none⟩,
        ⟨"code", "make_video()", some [⟨[(olxmlMime, "<video/>")]⟩]⟩]) →
      scells₂ =
        [⟨"markdown", "# Syllabus\n\n* **W**\n  * [T](nb.ipynb)", none⟩] →
      cf₂ = "" →
      converter_chapters render₂ parseXml₂ rd₂ notebooks₂ scells₂ cf₂ =
        .ok [XML.elem "chapter"
          [("url_name", "sec_00"), ("display_name", "W"),
            ("start", "2018-09-03T10:00:00Z")]
          [XML.elem "sequential"
            [("url_name", "subsec_00_00"), ("display_name", "T"),
              ("graded", "false")]
            [XML.elem "vertical"
              [("url_name", "subsec_00_00_00"), ("display_name", "U")]
              [XML.elem "html"
                [("url_name", "subsec_00_00_00_out_00"), ("display_name", "U"),
                  ("filename", "subsec_00_00_00_out_00")] [],
                XML.elem "video"
                  [("url_name", "subsec_00_00_00_out_01")] []]]]] :=
  converter_ids_unique_amended (fun _ => "H") (fun _ => XML.elem "video" [] [])
    [("W", "3 Sep 2018")]
    (fun _ => [⟨"markdown", "# U\nsome text", none⟩,
      ⟨"code", "make_video()", some [⟨[(olxmlMime, "<video/>")]⟩]⟩])
    [⟨"markdown", "# Syllabus\n\n* **W**\n  * [T](nb.ipynb)", none⟩] ""
    [XML.elem "chapter"
      [("url_name", "sec_00"), ("display_name", "W"),
        ("start", "2018-09-03T10:00:00Z")]
      [XML.elem "sequential"
        [("url_name", "subsec_00_00"), ("display_name", "T"),
          ("graded", "false")]
        [XML.elem "vertical"
          [("url_name", "subsec_00_00_00"), ("display_name", "U")]
          [XML.elem "html"
            [("url_name", "subsec_00_00_00_out_00"), ("display_name", "U"),
              ("filename", "subsec_00_00_00_out_00")] [],
            XML.elem "video" [("url_name", "subsec_00_00_00_out_01")] []]]]]
    (fun _ => rfl) rfl

end Converter
